import Mathlib

/-!
Verification development for the semantic documentation-staleness engine
(chunker, vector store, indexer, staleness scorer).

The TypeScript sources are embedded shallowly:

* scores and vector components are rationals (the JS numbers at issue are
  only compared and averaged, never rounded);
* the vectra storage backend (LocalIndex) is an external dependency; its
  behaviour (keyed record list, begin/commit/cancel update, top-n query by
  similarity with ties in insertion order) is modelled from the spec;
* the embedding model and the tree-sitter parser are external collaborators
  and enter as function parameters (an Option result models a throwing call);
* async/await structure is sequential and is flattened away.
-/

/-- Chunk kind: the metadata.type field, either code or docs. -/
inductive ChunkType where
  | code : ChunkType
  | docs : ChunkType
deriving DecidableEq, Repr

/-- Metadata carried by every indexed chunk (VectorItem.metadata in vectorDb.ts). -/
structure ChunkMeta where
  type : ChunkType
  filePath : String
  startLine : Nat
  endLine : Nat
  language : Option String
  symbolName : Option String
  lastModified : Int
deriving DecidableEq, Repr

/-- VectorItem from vectorDb.ts: id, text and metadata of one chunk. -/
structure VectorItem where
  id : String
  text : String
  metadata : ChunkMeta
deriving DecidableEq, Repr

/-- One record stored in the vectra LocalIndex: the inserted object
{id, vector, metadata: {text, ...item.metadata}} (the metadata spread is
modelled by keeping text next to the structured metadata). -/
structure IndexItem where
  id : String
  vector : List ℚ
  text : String
  meta : ChunkMeta
deriving DecidableEq, Repr

/-- The store contents, in insertion order (vectra keeps one record per id). -/
abbrev Store := List IndexItem

/-- Building the stored record from a VectorItem and its embedding, as in the
insertItem calls of upsertItem/upsertBatch. -/
def toIndexItem (item : VectorItem) (embedding : List ℚ) : IndexItem :=
  { id := item.id, vector := embedding, text := item.text, meta := item.metadata }

/-- index.deleteItem id: removes the record with that id. -/
def deleteItem (id : String) (st : Store) : Store :=
  st.filter (fun it => it.id ≠ id)

/-- One iteration of the upsertBatch loop body: getItem, deleteItem when the
id already exists, then insertItem (appending at the end). -/
def upsertStep (st : Store) (item : VectorItem) (embedding : List ℚ) : Store :=
  let st1 := if st.any (fun it => it.id = item.id) then deleteItem item.id st else st
  st1 ++ [toIndexItem item embedding]

/-- The loop of VectorDb.upsertBatch over the pending copy of the store.
fails i = true models index.insertItem throwing on the i-th entry of the
batch (a store write failure of the external backend). -/
def upsertLoop (fails : Nat → Bool) (i : Nat) (pending : Store) :
    List (VectorItem × List ℚ) → Except Unit Store
  | [] => .ok pending
  | e :: rest =>
      let st1 := if pending.any (fun it => it.id = e.1.id)
        then deleteItem e.1.id pending else pending
      if fails i then .error ()
      else upsertLoop fails (i + 1) (st1 ++ [toIndexItem e.1 e.2]) rest

/-- VectorDb.upsertBatch: beginUpdate takes a pending copy of the store, the
loop upserts every entry into it, endUpdate commits the copy; on any throw
cancelUpdate discards the copy and the error is re-raised. The returned
value is the committed store (ok) or the re-raised error. -/
def upsertBatch (fails : Nat → Bool) (st : Store)
    (entries : List (VectorItem × List ℚ)) : Except Unit Store :=
  upsertLoop fails 0 st entries

/-- The store contents after an upsertBatch call: on success the committed
pending copy, on error the unchanged store (cancelUpdate). -/
def storeAfterUpsertBatch (fails : Nat → Bool) (st : Store)
    (entries : List (VectorItem × List ℚ)) : Store :=
  match upsertBatch fails st entries with
  | .ok st1 => st1
  | .error _ => st

theorem upsertLoop_error_of_fails (fails : Nat → Bool) :
    ∀ (entries : List (VectorItem × List ℚ)) (i : Nat) (pending : Store),
      (∃ j, j < entries.length ∧ fails (i + j) = true) →
      upsertLoop fails i pending entries = .error () := by
  intro entries
  induction entries with
  | nil =>
      intro i pending h
      rcases h with ⟨j, hj, _⟩
      exact absurd hj (by simp)
  | cons e rest ih =>
      intro i pending h
      rcases h with ⟨j, hj, hfail⟩
      by_cases h0 : fails i = true
      · show (if fails i then Except.error () else _) = Except.error ()
        rw [if_pos h0]
      · have hj0 : j ≠ 0 := by
          intro hcontra
          rw [hcontra, Nat.add_zero] at hfail
          exact h0 hfail
        obtain ⟨j1, rfl⟩ := Nat.exists_eq_succ_of_ne_zero hj0
        show (if fails i then Except.error () else _) = Except.error ()
        rw [if_neg h0]
        apply ih
        refine ⟨j1, ?_, ?_⟩
        · simp only [List.length_cons] at hj
          omega
        · have harith : (i + 1) + j1 = i + (j1 + 1) := by omega
          rw [harith]
          exact hfail

/-- C1: upsertBatch is all-or-nothing per batch. If the write of any entry
of the batch fails, the batch raises the error to the caller and the store
afterwards is exactly the store before the call: every entry already applied
within the batch is rolled back, and whatever previous batches committed
(the prior store contents) is untouched. -/
theorem upsertBatch_atomic (fails : Nat → Bool) (st : Store)
    (entries : List (VectorItem × List ℚ))
    (h : ∃ j, j < entries.length ∧ fails j = true) :
    upsertBatch fails st entries = .error () ∧
      storeAfterUpsertBatch fails st entries = st := by
  have herr : upsertBatch fails st entries = .error () := by
    apply upsertLoop_error_of_fails
    simpa using h
  refine ⟨herr, ?_⟩
  simp [storeAfterUpsertBatch, herr]

/-- Witness for C1, scenario D: a batch of 5 entries whose third entry
throws. The call errors and the store (initially empty: a fresh index)
still holds nothing afterwards, so entries 1 and 2 are absent. -/
theorem upsertBatch_atomic_witness :
    (∃ j, j < ([(⟨"e1", "t1", ⟨.code, "f", 1, 1, none, none, 0⟩⟩, [1]),
                (⟨"e2", "t2", ⟨.code, "f", 2, 2, none, none, 0⟩⟩, [1]),
                (⟨"e3", "t3", ⟨.code, "f", 3, 3, none, none, 0⟩⟩, [1]),
                (⟨"e4", "t4", ⟨.code, "f", 4, 4, none, none, 0⟩⟩, [1]),
                (⟨"e5", "t5", ⟨.code, "f", 5, 5, none, none, 0⟩⟩, [1])] :
        List (VectorItem × List ℚ)).length ∧ (decide (j = 2)) = true) ∧
    upsertBatch (fun j => decide (j = 2)) []
        [(⟨"e1", "t1", ⟨.code, "f", 1, 1, none, none, 0⟩⟩, [1]),
         (⟨"e2", "t2", ⟨.code, "f", 2, 2, none, none, 0⟩⟩, [1]),
         (⟨"e3", "t3", ⟨.code, "f", 3, 3, none, none, 0⟩⟩, [1]),
         (⟨"e4", "t4", ⟨.code, "f", 4, 4, none, none, 0⟩⟩, [1]),
         (⟨"e5", "t5", ⟨.code, "f", 5, 5, none, none, 0⟩⟩, [1])] = .error () ∧
    storeAfterUpsertBatch (fun j => decide (j = 2)) []
        [(⟨"e1", "t1", ⟨.code, "f", 1, 1, none, none, 0⟩⟩, [1]),
         (⟨"e2", "t2", ⟨.code, "f", 2, 2, none, none, 0⟩⟩, [1]),
         (⟨"e3", "t3", ⟨.code, "f", 3, 3, none, none, 0⟩⟩, [1]),
         (⟨"e4", "t4", ⟨.code, "f", 4, 4, none, none, 0⟩⟩, [1]),
         (⟨"e5", "t5", ⟨.code, "f", 5, 5, none, none, 0⟩⟩, [1])] = [] := by
  refine ⟨⟨2, by decide, by decide⟩, ?_⟩
  have h := upsertBatch_atomic (fun j => decide (j = 2)) []
    [(⟨"e1", "t1", ⟨.code, "f", 1, 1, none, none, 0⟩⟩, [1]),
     (⟨"e2", "t2", ⟨.code, "f", 2, 2, none, none, 0⟩⟩, [1]),
     (⟨"e3", "t3", ⟨.code, "f", 3, 3, none, none, 0⟩⟩, [1]),
     (⟨"e4", "t4", ⟨.code, "f", 4, 4, none, none, 0⟩⟩, [1]),
     (⟨"e5", "t5", ⟨.code, "f", 5, 5, none, none, 0⟩⟩, [1])]
    ⟨2, by decide, by decide⟩
  exact h

/-- The filter argument of VectorDb.search: code, docs or all. -/
inductive KindFilter where
  | code : KindFilter
  | docs : KindFilter
  | all : KindFilter
deriving DecidableEq, Repr

/-- The options object of VectorDb.search; a missing field takes the
default of the destructuring (topK = 10, filter = all, minScore = 0.5). -/
structure SearchOptions where
  topK : Option Nat := none
  filter : Option KindFilter := none
  minScore : Option ℚ := none

/-- SearchResult from vectorDb.ts. -/
structure SearchResult where
  item : VectorItem
  score : ℚ
deriving DecidableEq, Repr

/-- A raw query result of the vectra backend: a stored record, its
similarity score against the query, and its insertion position. -/
structure Ranked where
  pos : Nat
  item : IndexItem
  score : ℚ
deriving DecidableEq, Repr

/-- Ranking order of raw query results: higher score first, ties broken by
earlier insertion position. -/
def rankLE (a b : Ranked) : Prop :=
  b.score < a.score ∨ (a.score = b.score ∧ a.pos ≤ b.pos)

instance : DecidableRel rankLE := fun a b =>
  inferInstanceAs (Decidable (_ ∨ _))

instance : IsTotal Ranked rankLE := by
  constructor
  intro a b
  rcases lt_trichotomy a.score b.score with h | h | h
  · exact Or.inr (Or.inl h)
  · rcases Nat.le_total a.pos b.pos with hp | hp
    · exact Or.inl (Or.inr ⟨h, hp⟩)
    · exact Or.inr (Or.inr ⟨h.symm, hp⟩)
  · exact Or.inl (Or.inl h)

instance : IsTrans Ranked rankLE := by
  constructor
  intro a b c hab hbc
  rcases hab with h1 | ⟨h1, p1⟩
  · rcases hbc with h2 | ⟨h2, _⟩
    · exact Or.inl (h2.trans h1)
    · exact Or.inl (h2 ▸ h1)
  · rcases hbc with h2 | ⟨h2, p2⟩
    · exact Or.inl (h1 ▸ h2)
    · exact Or.inr ⟨h1.trans h2, p1.trans p2⟩

/-- Modelled from the spec (section 4.3): the vectra LocalIndex backend is an
external dependency; index.queryItems(q, n) scores every stored record
against the query by cosine similarity and returns the n best, ties broken
by earliest insertion order. The similarity function sim stands for the
cosine similarity of the backend. -/
def queryItems (sim : List ℚ → List ℚ → ℚ) (st : Store) (q : List ℚ)
    (n : Nat) : List Ranked :=
  (List.insertionSort rankLE
    (st.enum.map fun p => { pos := p.1, item := p.2, score := sim q p.2.vector })).take n

/-- Equality test between a metadata.type value and a non-all filter value
(the string comparison r.item.metadata.type === filter of the source). -/
def typeMatchesFilter (t : ChunkType) (f : KindFilter) : Bool :=
  match t, f with
  | ChunkType.code, KindFilter.code => true
  | ChunkType.docs, KindFilter.docs => true
  | _, _ => false

/-- The filter predicate inside VectorDb.search: drop results below minScore,
and drop results whose metadata.type differs from a non-all filter. -/
def searchKeep (minScore : ℚ) (f : KindFilter) (r : Ranked) : Bool :=
  if r.score < minScore then false
  else if f ≠ KindFilter.all ∧ typeMatchesFilter r.item.meta.type f = false then false
  else true

/-- VectorDb.search before the final mapping step: over-fetch topK * 2 raw
results, filter by minScore and kind, truncate to topK. -/
def searchRanked (sim : List ℚ → List ℚ → ℚ) (st : Store) (q : List ℚ)
    (opts : SearchOptions) : List Ranked :=
  let topK := opts.topK.getD 10
  let f := opts.filter.getD KindFilter.all
  let minScore := opts.minScore.getD (1 / 2)
  ((queryItems sim st q (topK * 2)).filter (searchKeep minScore f)).take topK

/-- VectorDb.search: the filtered, truncated raw results mapped back to
SearchResult records (rebuilding the VectorItem from the stored fields). -/
def search (sim : List ℚ → List ℚ → ℚ) (st : Store) (q : List ℚ)
    (opts : SearchOptions) : List SearchResult :=
  (searchRanked sim st q opts).map fun r =>
    { item := { id := r.item.id, text := r.item.text, metadata := r.item.meta }
      score := r.score }

theorem searchRanked_sublist_sorted (sim : List ℚ → List ℚ → ℚ) (st : Store)
    (q : List ℚ) (opts : SearchOptions) :
    (searchRanked sim st q opts).Sublist
      (List.insertionSort rankLE
        (st.enum.map fun p => { pos := p.1, item := p.2, score := sim q p.2.vector })) := by
  unfold searchRanked queryItems
  exact ((List.take_sublist _ _).trans (List.filter_sublist _)).trans (List.take_sublist _ _)

/-- C2: for every store state, query vector and options, search returns the
filtered raw results mapped to SearchResult records; there are at most topK
of them; they are sorted by strictly descending similarity score with ties
broken by strictly earlier insertion position; and every result passed the
kind filter and the minScore cut, carries the similarity score the backend
computed for it, and sits at its insertion position in the store. -/
theorem search_spec (sim : List ℚ → List ℚ → ℚ) (st : Store) (q : List ℚ)
    (opts : SearchOptions) :
    search sim st q opts = (searchRanked sim st q opts).map
      (fun r => { item := { id := r.item.id, text := r.item.text, metadata := r.item.meta }
                  score := r.score }) ∧
    (search sim st q opts).length ≤ opts.topK.getD 10 ∧
    (searchRanked sim st q opts).Pairwise
      (fun a b => b.score < a.score ∨ (a.score = b.score ∧ a.pos < b.pos)) ∧
    (∀ r ∈ searchRanked sim st q opts,
      opts.minScore.getD (1 / 2) ≤ r.score ∧
      (opts.filter.getD KindFilter.all = KindFilter.all ∨
        typeMatchesFilter r.item.meta.type (opts.filter.getD KindFilter.all) = true) ∧
      st[r.pos]? = some r.item ∧ r.score = sim q r.item.vector) := by
  set base : List Ranked :=
    st.enum.map fun p => { pos := p.1, item := p.2, score := sim q p.2.vector } with hbase
  have hsub := searchRanked_sublist_sorted sim st q opts
  refine ⟨rfl, ?_, ?_, ?_⟩
  · have h1 : (search sim st q opts).length = (searchRanked sim st q opts).length := by
      simp [search]
    rw [h1]
    unfold searchRanked
    exact List.length_take_le _ _
  · have hsorted : (List.insertionSort rankLE base).Pairwise rankLE :=
      List.sorted_insertionSort rankLE base
    have hposnodup : ((List.insertionSort rankLE base).map Ranked.pos).Nodup := by
      have hperm : (List.insertionSort rankLE base).Perm base :=
        List.perm_insertionSort rankLE base
      have hbn : (base.map Ranked.pos).Nodup := by
        have : base.map Ranked.pos = st.enum.map Prod.fst := by
          rw [hbase, List.map_map]
          rfl
        rw [this, List.enum_map_fst]
        exact List.nodup_range _
      exact ((hperm.map Ranked.pos).nodup_iff).mpr hbn
    have hp1 : (searchRanked sim st q opts).Pairwise rankLE :=
      hsorted.sublist hsub
    have hp2 : (searchRanked sim st q opts).Pairwise (fun a b => a.pos ≠ b.pos) := by
      have : ((searchRanked sim st q opts).map Ranked.pos).Nodup :=
        (hsub.map Ranked.pos).nodup hposnodup
      simpa [List.Nodup, List.pairwise_map] using this
    refine (hp1.and hp2).imp ?_
    rintro a b ⟨hle | ⟨heq, hpos⟩, hne⟩
    · exact Or.inl hle
    · exact Or.inr ⟨heq, lt_of_le_of_ne hpos hne⟩
  · intro r hr
    have hrf : r ∈ (queryItems sim st q ((opts.topK.getD 10) * 2)).filter
        (searchKeep (opts.minScore.getD (1 / 2)) (opts.filter.getD KindFilter.all)) :=
      List.mem_of_mem_take hr
    rw [List.mem_filter] at hrf
    obtain ⟨hrq, hkeep⟩ := hrf
    have hge : opts.minScore.getD (1 / 2) ≤ r.score := by
      by_contra hcon
      push_neg at hcon
      unfold searchKeep at hkeep
      rw [if_pos hcon] at hkeep
      exact Bool.false_ne_true hkeep
    have hfil : opts.filter.getD KindFilter.all = KindFilter.all ∨
        typeMatchesFilter r.item.meta.type (opts.filter.getD KindFilter.all) = true := by
      by_contra hcon
      push_neg at hcon
      obtain ⟨hna, hnm⟩ := hcon
      unfold searchKeep at hkeep
      rw [if_neg (not_lt.mpr hge),
        if_pos ⟨hna, (Bool.not_eq_true _).mp hnm⟩] at hkeep
      exact Bool.false_ne_true hkeep
    have hrb : r ∈ base := by
      have := List.mem_of_mem_take hrq
      exact ((List.perm_insertionSort rankLE base).mem_iff).mp this
    rw [hbase, List.mem_map] at hrb
    obtain ⟨p, hpmem, hpr⟩ := hrb
    have hpm2 : (p.1, p.2) ∈ st.enum := by simpa using hpmem
    have henum := List.mem_enum hpm2
    subst hpr
    refine ⟨hge, hfil, ?_, rfl⟩
    rw [List.getElem?_eq_getElem henum.1]
    exact congrArg some henum.2.symm

/-- Inner product of two rational vectors. On unit vectors it coincides with
the cosine similarity dot(a,b)/(norm a * norm b) that the backend computes,
so it instantiates the similarity parameter with genuine cosine scores. -/
def dotQ (a b : List ℚ) : ℚ :=
  (a.zip b).foldl (fun s p => s + p.1 * p.2) 0

/-- A concrete store exhibiting the over-fetch truncation of search: two
docs records with the highest similarities ahead of two code records. -/
def overfetchStore : Store :=
  [ { id := "d1", vector := [24/25, 7/25], text := "docs one"
      meta := ⟨.docs, "a.md", 1, 2, none, none, 0⟩ },
    { id := "d2", vector := [4/5, 3/5], text := "docs two"
      meta := ⟨.docs, "a.md", 3, 4, none, none, 0⟩ },
    { id := "c1", vector := [3/5, 4/5], text := "code one"
      meta := ⟨.code, "a.ts", 1, 2, none, some "f", 0⟩ },
    { id := "c2", vector := [5/13, 12/13], text := "code two"
      meta := ⟨.code, "a.ts", 3, 4, none, some "g", 0⟩ } ]

/-- C10: search fetches only 2 * topK raw nearest candidates before
filtering, so there is a store state and a (unit) query vector where search
with topK = 1, kind filter code and minScore 0.3 returns no result at all,
although two stored entries (strictly more than topK) are code entries with
similarity at least minScore: they rank below position 2 * topK in raw
similarity order and are never returned. All vectors involved have unit
norm, so the dotQ scores are exactly the cosine similarities. -/
theorem search_overfetch_truncates :
    (search dotQ overfetchStore [1, 0]
        { topK := some 1, filter := some .code, minScore := some (3/10) }).length = 0 ∧
    (overfetchStore.countP
        (fun it => decide (it.meta.type = .code ∧ (3/10 : ℚ) ≤ dotQ [1, 0] it.vector))) = 2 ∧
    1 < 2 ∧
    dotQ [(1 : ℚ), 0] [1, 0] = 1 ∧
    (overfetchStore.all fun it => decide (dotQ it.vector it.vector = 1)) = true := by
  refine ⟨?_, ?_, by norm_num, ?_, ?_⟩
  · norm_num [search, searchRanked, queryItems, searchKeep, overfetchStore, dotQ,
      rankLE, List.insertionSort, List.orderedInsert, List.enum, List.enumFrom]
    decide
  · norm_num [overfetchStore, dotQ, List.countP, List.countP.go]
    decide
  · norm_num [dotQ]
  · norm_num [overfetchStore, dotQ, List.all]

/-- Severity of one staleness item in linter.ts. -/
inductive Severity where
  | info : Severity
  | warning : Severity
  | critical : Severity
deriving DecidableEq, Repr

/-- Overall health of a staleness report in linter.ts. -/
inductive Health where
  | healthy : Health
  | warning : Health
  | critical : Health
deriving DecidableEq, Repr

/-- One related-code reference inside a StalenessItem. -/
structure RelatedRef where
  path : String
  symbol : Option String
  similarity : ℚ
deriving DecidableEq, Repr

/-- StalenessItem from linter.ts. -/
structure StalenessItem where
  docPath : String
  docSection : String
  severity : Severity
  score : ℚ
  relatedCode : List RelatedRef
  suggestion : String
deriving DecidableEq, Repr

/-- The summary block of a StalenessReport. -/
structure ReportSummary where
  total : Nat
  healthy : Nat
  warning : Nat
  critical : Nat
deriving DecidableEq, Repr

/-- StalenessReport from linter.ts. -/
structure StalenessReport where
  overall : Health
  score : ℚ
  items : List StalenessItem
  summary : ReportSummary
deriving DecidableEq, Repr

/-- StalenessConfig from linter.ts: the three severity thresholds, the
healthy threshold, and the ignore filter. The source matches ignorePaths
glob patterns through a JS RegExp; that external matcher is modelled as the
predicate shouldIgnoreFn. -/
structure StalenessConfig where
  threshold : ℚ
  critical : ℚ
  warning : ℚ
  info : ℚ
  shouldIgnoreFn : String → Bool

/-- The numeric fields of DEFAULT_CONFIG in linter.ts:
threshold 0.85, severity thresholds critical 0.5, warning 0.7, info 0.85. -/
def defaultConfig (ignore : String → Bool) : StalenessConfig :=
  { threshold := 17/20, critical := 1/2, warning := 7/10, info := 17/20
    shouldIgnoreFn := ignore }

/-- Linter.getSeverity: classify a similarity score against the thresholds. -/
def getSeverity (cfg : StalenessConfig) (score : ℚ) : Severity :=
  if score < cfg.critical then Severity.critical
  else if score < cfg.warning then Severity.warning
  else Severity.info

/-- The JS expression a || b for an optional string a: b replaces a missing
or empty string. -/
def orElseStr (a : Option String) (b : String) : String :=
  match a with
  | some s => if s = "" then b else s
  | none => b

/-- Linter.getSuggestion: name up to 3 related code symbols or paths,
phrased according to the severity tier. -/
def getSuggestion (severity : Severity) (relatedCode : List SearchResult) : String :=
  let codeRefs := String.intercalate ", "
    ((relatedCode.take 3).map fun r =>
      orElseStr r.item.metadata.symbolName r.item.metadata.filePath)
  match severity with
  | Severity.critical =>
      "Documentation appears significantly outdated. Review and update to match current implementation in: " ++ codeRefs
  | Severity.warning =>
      "Documentation may need updates. Compare with: " ++ codeRefs
  | Severity.info =>
      "Minor drift detected. Consider reviewing: " ++ codeRefs

/-- Linter.checkDocItem: embed the doc text, search the store for up to 5
nearest code chunks with minScore 0.3; with no match emit the orphan info
item, otherwise classify the maximum similarity and drop the item when it
is healthy and at or above the threshold. -/
def checkDocItem (sim : List ℚ → List ℚ → ℚ) (embed : String → List ℚ)
    (cfg : StalenessConfig) (st : Store) (doc : SearchResult) :
    Option StalenessItem :=
  let docEmbedding := embed doc.item.text
  let relatedCode := search sim st docEmbedding
    { topK := some 5, filter := some KindFilter.code, minScore := some (3/10) }
  match relatedCode with
  | [] =>
      some { docPath := doc.item.metadata.filePath
             docSection := orElseStr doc.item.metadata.symbolName "Unknown section"
             severity := Severity.info
             score := 0
             relatedCode := []
             suggestion := "No related code found. This documentation may be orphaned or covering external topics." }
  | r :: rs =>
      let maxSimilarity := (rs.map fun x => x.score).foldl max r.score
      let severity := getSeverity cfg maxSimilarity
      if severity = Severity.info ∧ cfg.threshold ≤ maxSimilarity then none
      else
        some { docPath := doc.item.metadata.filePath
               docSection := orElseStr doc.item.metadata.symbolName "Unknown section"
               severity := severity
               score := maxSimilarity
               relatedCode := (r :: rs).map fun x =>
                 { path := x.item.metadata.filePath
                   symbol := x.item.metadata.symbolName
                   similarity := x.score }
               suggestion := getSuggestion severity (r :: rs) }

/-- Linter.getDocItems: fetch all documentation items with a generic probe
query, topK 1000, kind filter docs, minScore 0. -/
def getDocItems (sim : List ℚ → List ℚ → ℚ) (embed : String → List ℚ)
    (st : Store) : List SearchResult :=
  search sim st (embed "documentation readme guide")
    { topK := some 1000, filter := some KindFilter.docs, minScore := some 0 }

/-- The doc items the checkAll loop actually evaluates: every fetched doc
item whose path is not ignored (the loop body skips ignored paths and calls
checkDocItem exactly once for each remaining item). -/
def evaluatedDocs (sim : List ℚ → List ℚ → ℚ) (embed : String → List ℚ)
    (cfg : StalenessConfig) (st : Store) : List SearchResult :=
  (getDocItems sim embed st).filter fun d => ! cfg.shouldIgnoreFn d.item.metadata.filePath

/-- The summary fold of Linter.buildReport. -/
def buildSummary (items : List StalenessItem) : ReportSummary :=
  items.foldl
    (fun s it =>
      match it.severity with
      | Severity.critical => { s with critical := s.critical + 1 }
      | Severity.warning => { s with warning := s.warning + 1 }
      | Severity.info => { s with healthy := s.healthy + 1 })
    { total := items.length, healthy := 0, warning := 0, critical := 0 }

/-- Linter.buildReport: per-severity counts, overall health, numeric score,
and the final item list with healthy items at or above the threshold
filtered out. -/
def buildReport (cfg : StalenessConfig) (items : List StalenessItem) :
    StalenessReport :=
  let summary := buildSummary items
  let overall : Health :=
    if 0 < summary.critical then Health.critical
    else if 0 < summary.warning then Health.warning
    else Health.healthy
  let score : ℚ :=
    if 0 < summary.critical then 1 - ((summary.critical : ℚ) / (summary.total : ℚ))
    else if 0 < summary.warning then 1 - ((summary.warning : ℚ) / (summary.total : ℚ)) * (1/2)
    else 1
  { overall := overall
    score := score
    items := items.filter fun i => i.severity ≠ Severity.info ∨ i.score < cfg.threshold
    summary := summary }

/-- Linter.checkAll: evaluate every non-ignored fetched doc item once and
aggregate the resulting staleness items into a report. -/
def checkAll (sim : List ℚ → List ℚ → ℚ) (embed : String → List ℚ)
    (cfg : StalenessConfig) (st : Store) : StalenessReport :=
  buildReport cfg ((evaluatedDocs sim embed cfg st).filterMap (checkDocItem sim embed cfg st))

/-- Whether the first character list starts the second one. -/
def startsWithChars : List Char → List Char → Bool
  | [], _ => true
  | _ :: _, [] => false
  | a :: as, b :: bs => a == b && startsWithChars as bs

/-- Whether the first character list occurs contiguously in the second. -/
def hasSubChars (sub : List Char) : List Char → Bool
  | [] => startsWithChars sub []
  | c :: cs => startsWithChars sub (c :: cs) || hasSubChars sub cs

/-- The JS test hay.includes(sub) of String.prototype.includes used by
Linter.checkPath: sub occurs as a contiguous substring of hay. -/
def strIncludes (hay sub : String) : Bool :=
  hasSubChars sub.data hay.data

/-- The filter step of Linter.checkPath: the fetched doc items whose
filePath contains the path argument as a substring. -/
def pathDocs (sim : List ℚ → List ℚ → ℚ) (embed : String → List ℚ)
    (st : Store) (p : String) : List SearchResult :=
  (getDocItems sim embed st).filter fun d => strIncludes d.item.metadata.filePath p

/-- The doc items the checkPath loop actually evaluates: every fetched,
path-matching doc item whose path is not ignored (the loop body skips
ignored paths and calls checkDocItem exactly once for each remaining
item). -/
def evaluatedDocsPath (sim : List ℚ → List ℚ → ℚ) (embed : String → List ℚ)
    (cfg : StalenessConfig) (st : Store) (p : String) : List SearchResult :=
  (pathDocs sim embed st p).filter fun d => ! cfg.shouldIgnoreFn d.item.metadata.filePath

/-- Linter.checkPath: evaluate once every non-ignored fetched doc item whose
path contains the argument and aggregate the results into a report. -/
def checkPath (sim : List ℚ → List ℚ → ℚ) (embed : String → List ℚ)
    (cfg : StalenessConfig) (st : Store) (p : String) : StalenessReport :=
  buildReport cfg
    ((evaluatedDocsPath sim embed cfg st p).filterMap (checkDocItem sim embed cfg st))

theorem le_foldl_max (l : List ℚ) : ∀ a : ℚ, a ≤ l.foldl max a := by
  induction l with
  | nil => intro a; exact le_refl a
  | cons x l ih =>
      intro a
      exact le_trans (le_max_left a x) (ih (max a x))

theorem mem_le_foldl_max (l : List ℚ) : ∀ (a x : ℚ), x ∈ l → x ≤ l.foldl max a := by
  induction l with
  | nil => intro a x hx; cases hx
  | cons y l ih =>
      intro a x hx
      rcases List.mem_cons.mp hx with rfl | hx
      · exact le_trans (le_max_right a x) (le_foldl_max l (max a x))
      · exact ih (max a y) x hx

theorem foldl_max_mem (l : List ℚ) : ∀ a : ℚ, l.foldl max a = a ∨ l.foldl max a ∈ l := by
  induction l with
  | nil => intro a; exact Or.inl rfl
  | cons x l ih =>
      intro a
      rcases ih (max a x) with h | h
      · rcases max_choice a x with hm | hm
        · exact Or.inl (by rw [List.foldl_cons, h, hm])
        · refine Or.inr (List.mem_cons.mpr (Or.inl ?_))
          rw [List.foldl_cons, h, hm]
      · exact Or.inr (List.mem_cons.mpr (Or.inr (by rwa [List.foldl_cons])))

/-- C3: when a documentation chunk has at least one related code match, the
representative score of checkDocItem is the maximum similarity among the
up-to-5 candidates, and under the default thresholds the item is classified
critical below 0.5, warning in [0.5, 0.7), healthy (info) in [0.7, 0.85)
and kept in the report, and dropped at 0.85 or above. In particular a best
match of 0.42 is critical and a best match of 0.90 produces no item. -/
theorem checkDocItem_classification (sim : List ℚ → List ℚ → ℚ)
    (embed : String → List ℚ) (ignore : String → Bool) (st : Store)
    (doc : SearchResult) (r : SearchResult) (rs : List SearchResult)
    (h : search sim st (embed doc.item.text)
      { topK := some 5, filter := some KindFilter.code, minScore := some (3/10) } = r :: rs) :
    ((rs.map fun x => x.score).foldl max r.score ∈ (r :: rs).map (fun x => x.score) ∧
      ∀ s ∈ (r :: rs).map (fun x => x.score),
        s ≤ (rs.map fun x => x.score).foldl max r.score) ∧
    ((checkDocItem sim embed (defaultConfig ignore) st doc).map
        fun it => (it.severity, it.score)) =
      (if (rs.map fun x => x.score).foldl max r.score < 1/2 then
        some (Severity.critical, (rs.map fun x => x.score).foldl max r.score)
      else if (rs.map fun x => x.score).foldl max r.score < 7/10 then
        some (Severity.warning, (rs.map fun x => x.score).foldl max r.score)
      else if (rs.map fun x => x.score).foldl max r.score < 17/20 then
        some (Severity.info, (rs.map fun x => x.score).foldl max r.score)
      else none) := by
  set m := (rs.map fun x => x.score).foldl max r.score with hm
  constructor
  · constructor
    · rcases foldl_max_mem (rs.map fun x => x.score) r.score with hc | hc
      · rw [← hm] at hc
        rw [hc]
        exact List.mem_cons.mpr (Or.inl rfl)
      · rw [← hm] at hc
        exact List.mem_cons.mpr (Or.inr hc)
    · intro s hs
      rcases List.mem_cons.mp hs with rfl | hs
      · exact le_foldl_max _ _
      · exact mem_le_foldl_max _ _ _ hs
  · simp only [checkDocItem]
    rw [h]
    simp only [← hm]
    have hc : (defaultConfig ignore).critical = 1/2 := rfl
    have hw : (defaultConfig ignore).warning = 7/10 := rfl
    have hth : (defaultConfig ignore).threshold = 17/20 := rfl
    unfold getSeverity
    rw [hc, hw, hth]
    by_cases h1 : m < 1/2
    · have hng : ¬ (Severity.critical = Severity.info ∧ (17:ℚ)/20 ≤ m) := by
        intro hcon
        exact absurd hcon.1 (by decide)
      simp only [if_pos h1, if_neg hng]
      rfl
    · by_cases h2 : m < 7/10
      · have hng : ¬ (Severity.warning = Severity.info ∧ (17:ℚ)/20 ≤ m) := by
          intro hcon
          exact absurd hcon.1 (by decide)
        simp only [if_neg h1, if_pos h2, if_neg hng]
        rfl
      · by_cases h3 : m < 17/20
        · have hng : ¬ (True ∧ (17:ℚ)/20 ≤ m) := by
            intro hcon
            exact absurd hcon.2 (not_le.mpr h3)
          simp only [if_neg h1, if_neg h2, if_pos h3]
          rw [if_neg hng]
          rfl
        · have hpg : True ∧ (17:ℚ)/20 ≤ m := ⟨trivial, not_lt.mp h3⟩
          simp only [if_neg h1, if_neg h2, if_neg h3]
          rw [if_pos hpg]
          rfl

/-- Witness for C3: two one-item stores realizing a best match of 0.42
(classified critical) and of 0.90 (dropped from the report). -/
theorem checkDocItem_classification_witness :
    ((checkDocItem (fun _ _ => 21/50) (fun _ => [1])
        (defaultConfig fun _ => false)
        [ { id := "c1", vector := [1], text := "code"
            meta := ⟨.code, "a.ts", 1, 2, none, some "f", 0⟩ } ]
        (⟨⟨"d1", "doc text", ⟨.docs, "a.md", 1, 2, none, some "Intro", 0⟩⟩, 1⟩ :
          SearchResult)).map fun it => (it.severity, it.score)) =
      some (Severity.critical, 21/50) ∧
    ((checkDocItem (fun _ _ => 9/10) (fun _ => [1])
        (defaultConfig fun _ => false)
        [ { id := "c1", vector := [1], text := "code"
            meta := ⟨.code, "a.ts", 1, 2, none, some "f", 0⟩ } ]
        (⟨⟨"d1", "doc text", ⟨.docs, "a.md", 1, 2, none, some "Intro", 0⟩⟩, 1⟩ :
          SearchResult)).map fun it => (it.severity, it.score)) = none := by
  constructor
  · have h := checkDocItem_classification (fun _ _ => 21/50) (fun _ => [1])
      (fun _ => false)
      [ { id := "c1", vector := [1], text := "code"
          meta := ⟨.code, "a.ts", 1, 2, none, some "f", 0⟩ } ]
      (⟨⟨"d1", "doc text", ⟨.docs, "a.md", 1, 2, none, some "Intro", 0⟩⟩, 1⟩ :
        SearchResult)
      (⟨⟨"c1", "code", ⟨.code, "a.ts", 1, 2, none, some "f", 0⟩⟩, 21/50⟩ :
        SearchResult)
      []
      (by norm_num [search, searchRanked, queryItems, searchKeep, typeMatchesFilter,
        rankLE, List.insertionSort, List.orderedInsert, List.enum, List.enumFrom,
        List.filter])
    have h2 := h.2
    rw [h2]
    norm_num [defaultConfig]
  · have h := checkDocItem_classification (fun _ _ => 9/10) (fun _ => [1])
      (fun _ => false)
      [ { id := "c1", vector := [1], text := "code"
          meta := ⟨.code, "a.ts", 1, 2, none, some "f", 0⟩ } ]
      (⟨⟨"d1", "doc text", ⟨.docs, "a.md", 1, 2, none, some "Intro", 0⟩⟩, 1⟩ :
        SearchResult)
      (⟨⟨"c1", "code", ⟨.code, "a.ts", 1, 2, none, some "f", 0⟩⟩, 9/10⟩ :
        SearchResult)
      []
      (by norm_num [search, searchRanked, queryItems, searchKeep, typeMatchesFilter,
        rankLE, List.insertionSort, List.orderedInsert, List.enum, List.enumFrom,
        List.filter])
    have h2 := h.2
    rw [h2]
    norm_num [defaultConfig]

theorem buildSummary_loop_eq (items : List StalenessItem) :
    ∀ init : ReportSummary,
      items.foldl
        (fun s it =>
          match it.severity with
          | Severity.critical => { s with critical := s.critical + 1 }
          | Severity.warning => { s with warning := s.warning + 1 }
          | Severity.info => { s with healthy := s.healthy + 1 })
        init =
      { total := init.total
        healthy := init.healthy + items.countP (fun i => decide (i.severity = Severity.info))
        warning := init.warning + items.countP (fun i => decide (i.severity = Severity.warning))
        critical := init.critical + items.countP (fun i => decide (i.severity = Severity.critical)) } := by
  induction items with
  | nil =>
      intro init
      simp [List.countP, List.countP.go]
  | cons it rest ih =>
      intro init
      rw [List.foldl_cons, ih]
      rcases hsev : it.severity with _ | _ | _ <;>
        simp [List.countP_cons, hsev] <;> omega

theorem buildSummary_eq (items : List StalenessItem) :
    buildSummary items =
      { total := items.length
        healthy := items.countP (fun i => decide (i.severity = Severity.info))
        warning := items.countP (fun i => decide (i.severity = Severity.warning))
        critical := items.countP (fun i => decide (i.severity = Severity.critical)) } := by
  unfold buildSummary
  rw [buildSummary_loop_eq]
  simp

/-- C4: buildReport aggregates a list of staleness items into overall
health critical when any critical item exists, else warning when any
warning item exists, else healthy; its numeric score is
1 - criticalCount/total when critical items exist,
1 - 0.5 * warningCount/total when only warnings exist, and 1 otherwise. -/
theorem buildReport_aggregation (cfg : StalenessConfig)
    (items : List StalenessItem) :
    (buildReport cfg items).overall =
      (if 0 < items.countP (fun i => decide (i.severity = Severity.critical)) then
        Health.critical
      else if 0 < items.countP (fun i => decide (i.severity = Severity.warning)) then
        Health.warning
      else Health.healthy) ∧
    (buildReport cfg items).score =
      (if 0 < items.countP (fun i => decide (i.severity = Severity.critical)) then
        1 - ((items.countP (fun i => decide (i.severity = Severity.critical)) : ℚ) /
          (items.length : ℚ))
      else if 0 < items.countP (fun i => decide (i.severity = Severity.warning)) then
        1 - (1/2) * ((items.countP (fun i => decide (i.severity = Severity.warning)) : ℚ) /
          (items.length : ℚ))
      else 1) := by
  unfold buildReport
  rw [buildSummary_eq]
  constructor
  · rfl
  · simp only []
    by_cases hc : 0 < items.countP (fun i => decide (i.severity = Severity.critical))
    · rw [if_pos hc, if_pos hc]
    · rw [if_neg hc, if_neg hc]
      by_cases hw : 0 < items.countP (fun i => decide (i.severity = Severity.warning))
      · rw [if_pos hw, if_pos hw]
        ring
      · rw [if_neg hw, if_neg hw]

theorem search_map_id_nodup (sim : List ℚ → List ℚ → ℚ) (st : Store)
    (q : List ℚ) (opts : SearchOptions)
    (hids : (st.map fun it => it.id).Nodup) :
    ((search sim st q opts).map fun r => r.item.id).Nodup := by
  have h1 : (search sim st q opts).map (fun r => r.item.id) =
      (searchRanked sim st q opts).map (fun r => r.item.id) := by
    unfold search
    rw [List.map_map]
    rfl
  rw [h1]
  set base : List Ranked :=
    st.enum.map fun p => { pos := p.1, item := p.2, score := sim q p.2.vector } with hbase
  have hsub : ((searchRanked sim st q opts).map fun r => r.item.id).Sublist
      ((List.insertionSort rankLE base).map fun r => r.item.id) :=
    (searchRanked_sublist_sorted sim st q opts).map _
  have hperm : ((List.insertionSort rankLE base).map fun r => r.item.id).Perm
      (base.map fun r => r.item.id) :=
    (List.perm_insertionSort rankLE base).map _
  have hb : (base.map fun r => r.item.id) = st.map fun it => it.id := by
    rw [hbase, List.map_map]
    have : ((fun r => r.item.id) ∘ fun p : Nat × IndexItem =>
        ({ pos := p.1, item := p.2, score := sim q p.2.vector } : Ranked)) =
        (fun it : IndexItem => it.id) ∘ Prod.snd := rfl
    rw [this, ← List.map_map, List.enum_map_snd]
  have hsorted : ((List.insertionSort rankLE base).map fun r => r.item.id).Nodup := by
    rw [hperm.nodup_iff, hb]
    exact hids
  exact hsorted.sublist hsub

/-- A store with a single documentation chunk whose embedding has negative
cosine similarity with the probe embedding of getDocItems. -/
def negDocStore : Store :=
  [ { id := "d1", vector := [-1, 0], text := "intro docs"
      meta := ⟨.docs, "a.md", 1, 2, none, some "Intro", 0⟩ } ]

/-- Counterexample to C6 as stated: a stored, non-ignored documentation
chunk for which checkAll performs no staleness evaluation at all. The
probe query of getDocItems keeps only results with similarity at least 0,
so a doc chunk at negative cosine similarity to the probe embedding (here
dotQ of unit vectors [1,0] and [-1,0], which is -1) is never fetched and
never evaluated, although it is a docs entry in the store and no ignore
pattern matches it. -/
theorem checkAll_misses_stored_doc :
    evaluatedDocs dotQ (fun _ => [1, 0]) (defaultConfig fun _ => false) negDocStore = [] ∧
    negDocStore.countP (fun it => decide (it.meta.type = ChunkType.docs)) = 1 ∧
    (defaultConfig fun _ => false).shouldIgnoreFn "a.md" = false ∧
    dotQ [1, 0] [-1, 0] < 0 ∧
    dotQ [(1:ℚ), 0] [1, 0] = 1 ∧ dotQ [(-1:ℚ), 0] [-1, 0] = 1 := by
  refine ⟨?_, by decide, rfl, by norm_num [dotQ], by norm_num [dotQ], by norm_num [dotQ]⟩
  norm_num [evaluatedDocs, getDocItems, search, searchRanked, queryItems, searchKeep,
    typeMatchesFilter, rankLE, negDocStore, dotQ, List.insertionSort, List.orderedInsert,
    List.enum, List.enumFrom, List.filter]

theorem evaluated_count_one (l : List SearchResult) (d : SearchResult)
    (hnd : (l.map fun x => x.item.id).Nodup) (hdm : d ∈ l) :
    l.countP (fun x => x.item.id == d.item.id) = 1 := by
  have hcount : l.countP (fun x => x.item.id == d.item.id) =
      (l.map fun x => x.item.id).count d.item.id := by
    rw [List.count_eq_countP, List.countP_map]
    rfl
  rw [hcount]
  exact List.count_eq_one_of_mem hnd (List.mem_map.mpr ⟨d, hdm, rfl⟩)

/-- C6 amended: checkAll evaluates exactly once every documentation chunk
that the probe query returns (the up-to-1000 best-scoring docs entries, at
similarity at least 0, within the 2000 nearest raw candidates) and whose
path is not ignored, and checkPath with a path filter evaluates exactly
once every such returned, non-ignored chunk whose file path contains the
filter as a substring, and does not evaluate returned chunks whose path
does not contain it; the evaluation is the single checkDocItem call (top 5
nearest code chunks, minScore 0.3) and checkAll and checkPath are the
aggregations of their evaluations. Chunks the probe query misses are never
evaluated by either, as the counterexample shows, so the statement is
restricted to returned chunks. -/
theorem checkAll_evaluates_each_returned_doc_once (sim : List ℚ → List ℚ → ℚ)
    (embed : String → List ℚ) (cfg : StalenessConfig) (st : Store)
    (hids : (st.map fun it => it.id).Nodup)
    (d : SearchResult) (hd : d ∈ getDocItems sim embed st)
    (hig : cfg.shouldIgnoreFn d.item.metadata.filePath = false) :
    (evaluatedDocs sim embed cfg st).countP
      (fun x => x.item.id == d.item.id) = 1 ∧
    checkAll sim embed cfg st =
      buildReport cfg
        ((evaluatedDocs sim embed cfg st).filterMap (checkDocItem sim embed cfg st)) ∧
    (∀ p, strIncludes d.item.metadata.filePath p = true →
      (evaluatedDocsPath sim embed cfg st p).countP
        (fun x => x.item.id == d.item.id) = 1) ∧
    (∀ p, strIncludes d.item.metadata.filePath p = false →
      (evaluatedDocsPath sim embed cfg st p).countP
        (fun x => x.item.id == d.item.id) = 0) ∧
    (∀ p, checkPath sim embed cfg st p =
      buildReport cfg
        ((evaluatedDocsPath sim embed cfg st p).filterMap
          (checkDocItem sim embed cfg st))) := by
  have hnd : ((getDocItems sim embed st).map fun x => x.item.id).Nodup :=
    search_map_id_nodup sim st (embed "documentation readme guide")
      { topK := some 1000, filter := some KindFilter.docs, minScore := some 0 } hids
  refine ⟨?_, rfl, ?_, ?_, fun p => rfl⟩
  · refine evaluated_count_one _ d (hnd.sublist ((List.filter_sublist _).map _)) ?_
    unfold evaluatedDocs
    rw [List.mem_filter]
    exact ⟨hd, by rw [hig]; rfl⟩
  · intro p hp
    have hsub : ((evaluatedDocsPath sim embed cfg st p).map fun x => x.item.id).Sublist
        ((getDocItems sim embed st).map fun x => x.item.id) :=
      ((List.filter_sublist _).trans (List.filter_sublist _)).map _
    refine evaluated_count_one _ d (hnd.sublist hsub) ?_
    unfold evaluatedDocsPath pathDocs
    rw [List.mem_filter, List.mem_filter]
    exact ⟨⟨hd, hp⟩, by rw [hig]; rfl⟩
  · intro p hp
    rw [List.countP_eq_zero]
    intro x hx hbeq
    have hx1 : x ∈ pathDocs sim embed st p := (List.mem_filter.mp hx).1
    have hxg : x ∈ getDocItems sim embed st := (List.mem_filter.mp hx1).1
    have hx2 : strIncludes x.item.metadata.filePath p = true :=
      (List.mem_filter.mp hx1).2
    have hide : x.item.id = d.item.id := by simpa using hbeq
    have hxd : x = d := List.inj_on_of_nodup_map hnd hxg hd hide
    rw [hxd, hp] at hx2
    exact Bool.false_ne_true hx2

/-- A store with a single documentation chunk at positive similarity to the
probe embedding. -/
def posDocStore : Store :=
  [ { id := "d1", vector := [1, 0], text := "intro docs"
      meta := ⟨.docs, "a.md", 1, 2, none, some "Intro", 0⟩ } ]

/-- Witness for the amended C6: in a one-doc store whose chunk the probe
query returns, that chunk is evaluated exactly once by checkAll, exactly
once by checkPath on the matching path filter a.md, and not at all by
checkPath on the non-matching path filter zzz. -/
theorem checkAll_evaluates_each_returned_doc_once_witness :
    (evaluatedDocs dotQ (fun _ => [1, 0]) (defaultConfig fun _ => false)
      posDocStore).countP
        (fun x => x.item.id ==
          (⟨⟨"d1", "intro docs", ⟨.docs, "a.md", 1, 2, none, some "Intro", 0⟩⟩, 1⟩ :
            SearchResult).item.id) = 1 ∧
    (evaluatedDocsPath dotQ (fun _ => [1, 0]) (defaultConfig fun _ => false)
      posDocStore "a.md").countP
        (fun x => x.item.id ==
          (⟨⟨"d1", "intro docs", ⟨.docs, "a.md", 1, 2, none, some "Intro", 0⟩⟩, 1⟩ :
            SearchResult).item.id) = 1 ∧
    (evaluatedDocsPath dotQ (fun _ => [1, 0]) (defaultConfig fun _ => false)
      posDocStore "zzz").countP
        (fun x => x.item.id ==
          (⟨⟨"d1", "intro docs", ⟨.docs, "a.md", 1, 2, none, some "Intro", 0⟩⟩, 1⟩ :
            SearchResult).item.id) = 0 := by
  have h := checkAll_evaluates_each_returned_doc_once dotQ (fun _ => [1, 0])
    (defaultConfig fun _ => false) posDocStore
    (by decide)
    (⟨⟨"d1", "intro docs", ⟨.docs, "a.md", 1, 2, none, some "Intro", 0⟩⟩, 1⟩ :
      SearchResult)
    (by norm_num [getDocItems, search, searchRanked, queryItems, searchKeep,
      typeMatchesFilter, rankLE, posDocStore, dotQ, List.insertionSort,
      List.orderedInsert, List.enum, List.enumFrom, List.filter])
    rfl
  exact ⟨h.1, h.2.2.1 "a.md" (by decide), h.2.2.2.1 "zzz" (by decide)⟩

/-- Whitespace class of the markdown heading regex (the JS regex \s; the
unicode space variants play no role for the properties at issue). -/
def jsWhitespace (c : Char) : Bool :=
  c = ' ' || c = '\t' || c = '\n' || c = '\r' || c = '\x0b' || c = '\x0c'

/-- Test of the heading regex of Indexer.chunkMarkdown: one to six leading
hash marks, then at least one whitespace character, then at least one more
character (the backtracking of the regex makes a line of hashes followed by
two or more whitespace characters match as well). -/
def isHeadingLine (line : String) : Bool :=
  let cs := line.data
  let l := (cs.takeWhile (fun c => c = '#')).length
  match cs.drop l with
  | c :: _ :: _ => decide (1 ≤ l) && decide (l ≤ 6) && jsWhitespace c
  | _ => false

/-- The title capture of the heading regex: everything after the greedy
whitespace run, backtracking one character when the rest of the line is
whitespace only. -/
def headingTitle (line : String) : String :=
  let cs := line.data
  let l := (cs.takeWhile (fun c => c = '#')).length
  let rest := cs.drop l
  let w := (rest.takeWhile jsWhitespace).length
  if w < rest.length then String.mk (rest.drop w)
  else String.mk (rest.drop (w - 1))

/-- The JS expression s.split(sep) for a one-character separator, modelled
on the character list: n separators yield n + 1 parts, the empty string
yields one empty part. -/
def splitCharAux (sep : Char) : List Char → List String
  | [] => [""]
  | c :: rest =>
      let r := splitCharAux sep rest
      if c = sep then "" :: r
      else
        match r with
        | [] => [String.mk [c]]
        | s :: ss => String.mk (c :: s.data) :: ss

/-- Splitting file content into lines. -/
def splitLines (s : String) : List String :=
  splitCharAux '\n' s.data

/-- One markdown chunk as pushed by Indexer.chunkMarkdown: id is
filePath#startLine, text joins the accumulated lines. -/
def mkDocChunk (filePath : String) (lastModified : Int) (startLine endLine : Nat)
    (header : String) (chunkLines : List String) : VectorItem :=
  { id := filePath ++ "#" ++ Nat.repr startLine
    text := String.intercalate "\n" chunkLines
    metadata := { type := ChunkType.docs, filePath := filePath
                  startLine := startLine, endLine := endLine
                  language := none, symbolName := some header
                  lastModified := lastModified } }

/-- The loop of Indexer.chunkMarkdown: i is the 0-based index of the next
line, startLine the 1-based start of the accumulating chunk. At a heading
the accumulated chunk (when nonempty) is pushed with endLine i and a new
chunk starts at the heading; at end of input a nonempty accumulated chunk
is pushed with endLine equal to the number of lines. -/
def chunkMarkdownGo (filePath : String) (lastModified : Int) :
    Nat → Nat → String → List String → List String → List VectorItem
  | i, startLine, currentHeader, currentChunk, [] =>
      if currentChunk.isEmpty then []
      else [mkDocChunk filePath lastModified startLine i currentHeader currentChunk]
  | i, startLine, currentHeader, currentChunk, line :: rest =>
      if isHeadingLine line then
        (if currentChunk.isEmpty then []
         else [mkDocChunk filePath lastModified startLine i currentHeader currentChunk]) ++
        chunkMarkdownGo filePath lastModified (i + 1) (i + 1) (headingTitle line) [line] rest
      else
        chunkMarkdownGo filePath lastModified (i + 1) startLine currentHeader
          (currentChunk ++ [line]) rest

/-- Indexer.chunkMarkdown: split on newlines and run the header loop from
line index 0 with startLine 1, empty header and empty accumulator. -/
def chunkMarkdown (content filePath : String) (lastModified : Int) : List VectorItem :=
  chunkMarkdownGo filePath lastModified 0 1 "" [] (splitLines content)

/-- Spec-side description of the chunk boundaries: the 0-based indices of
the heading lines. -/
def headingIdxs : List String → List Nat
  | [] => []
  | l :: rest => (if isHeadingLine l then [0] else []) ++ (headingIdxs rest).map (· + 1)

/-- Spec-side description of consecutive chunk ranges: a chunk starting at
1-based line sl runs to the line before the next boundary, the last chunk
runs to the last line. -/
def mkRanges : Nat → List Nat → Nat → List (Nat × Nat)
  | sl, [], endL => [(sl, endL)]
  | sl, b :: bs, endL => (sl, b) :: mkRanges (b + 1) bs endL

/-- Spec-side (startLine, endLine) ranges of the markdown chunks of a line
list: a chunk starts at every heading line and runs to the line before the
next heading or to the end; a non-heading preamble before the first heading
is its own chunk. -/
def specRanges (lines : List String) : List (Nat × Nat) :=
  match headingIdxs lines with
  | [] => if lines.isEmpty then [] else [(1, lines.length)]
  | b :: bs => (if b = 0 then [] else [(1, b)]) ++ mkRanges (b + 1) bs lines.length

/-- Chunking configuration of the Indexer; the line-window fallback only
terminates when the stride chunkSize - chunkOverlap is positive, which the
defaults (500, 50) satisfy, so the positivity is carried as a field. -/
structure IndexConfig where
  chunkSize : Nat
  chunkOverlap : Nat
  overlap_lt : chunkOverlap < chunkSize

/-- The chunkSize and chunkOverlap fields of DEFAULT_CONFIG in indexer.ts. -/
def defaultIndexConfig : IndexConfig :=
  { chunkSize := 500, chunkOverlap := 50, overlap_lt := by decide }

/-- The loop of Indexer.simpleChunk: fixed-size line windows advancing by
chunkSize - chunkOverlap, discarding windows whose text trims to empty. -/
def simpleChunkGo (cfg : IndexConfig) (filePath : String) (type : ChunkType)
    (lastModified : Int) (lines : List String) (i : Nat) : List VectorItem :=
  if h : i < lines.length then
    let chunkLines := (lines.drop i).take cfg.chunkSize
    let text := String.intercalate "\n" chunkLines
    (if text.trim ≠ "" then
      [{ id := filePath ++ "#" ++ Nat.repr (i + 1)
         text := text
         metadata := { type := type, filePath := filePath, startLine := i + 1
                       endLine := min (i + cfg.chunkSize) lines.length
                       language := none, symbolName := none
                       lastModified := lastModified } }]
     else []) ++
    simpleChunkGo cfg filePath type lastModified lines (i + (cfg.chunkSize - cfg.chunkOverlap))
  else []
termination_by lines.length - i
decreasing_by
  have hst : 0 < cfg.chunkSize - cfg.chunkOverlap := Nat.sub_pos_of_lt cfg.overlap_lt
  omega

/-- Indexer.simpleChunk: line-window fallback chunking. -/
def simpleChunk (cfg : IndexConfig) (content filePath : String) (type : ChunkType)
    (lastModified : Int) : List VectorItem :=
  simpleChunkGo cfg filePath type lastModified (splitLines content) 0

/-- CodeChunk from parser.ts; type is one of the node-kind strings
(function, class, method, interface, type, variable, import, other). -/
structure CodeChunk where
  type : String
  name : Option String
  text : String
  startLine : Nat
  endLine : Nat
deriving DecidableEq, Repr

/-- The JS expression chunk.name || i: the index replaces a missing or
empty symbol name in the chunk id. -/
def nameOrIdx (name : Option String) (i : Nat) : String :=
  match name with
  | some s => if s = "" then Nat.repr i else s
  | none => Nat.repr i

/-- Node path.extname: the suffix of the final path segment from its last
dot, empty when there is no dot or the segment is a dotfile. -/
def extname (p : String) : String :=
  let base := (splitCharAux '/' p.data).getLastD p
  let cs := base.data
  let revTail := cs.reverse.takeWhile (fun c => c ≠ '.')
  if revTail.length + 1 < cs.length then String.mk ('.' :: revTail.reverse)
  else ""

/-- The JS expression s.toLowerCase() on the characters (the extensions at
issue are ASCII). -/
def lowerStr (s : String) : String :=
  String.mk (s.data.map Char.toLower)

/-- Indexer.chunkCode: the tree-sitter parser is an external collaborator
entering as the parse parameter; a none result models parseCode throwing,
in which case the line-window fallback is used. On success every parsed
chunk becomes an item with id filePath#type#(name or index). -/
def chunkCode (cfg : IndexConfig) (parse : String → Option (List CodeChunk))
    (content filePath : String) (lastModified : Int) : List VectorItem :=
  let ext := lowerStr (extname filePath)
  let language := if ext = ".ts" ∨ ext = ".tsx" then "typescript" else "javascript"
  match parse content with
  | some codeChunks =>
      codeChunks.enum.map fun p =>
        { id := filePath ++ "#" ++ p.2.type ++ "#" ++ nameOrIdx p.2.name p.1
          text := p.2.text
          metadata := { type := ChunkType.code, filePath := filePath
                        startLine := p.2.startLine, endLine := p.2.endLine
                        language := some language, symbolName := p.2.name
                        lastModified := lastModified } }
  | none => simpleChunk cfg content filePath ChunkType.code lastModified

/-- The code extensions of Indexer.indexFile. -/
def isCodeExt (e : String) : Bool :=
  e == ".ts" || e == ".js" || e == ".tsx" || e == ".jsx"

/-- The docs extension of Indexer.indexFile. -/
def isDocsExt (e : String) : Bool :=
  e == ".md"

/-- The chunks indexFile computes for a file: tree-sitter (or fallback)
chunking for code extensions, header chunking for markdown. -/
def fileChunks (cfg : IndexConfig) (parse : String → Option (List CodeChunk))
    (content path : String) (mtime : Int) : List VectorItem :=
  if isCodeExt (lowerStr (extname path)) then chunkCode cfg parse content path mtime
  else chunkMarkdown content path mtime

/-- One input file of the Indexer: its path, its content (none models a
file the file-system collaborator fails to read; the source treats the
empty string like a missing file through the !content test) and its
modification time. -/
structure FileInput where
  path : String
  content : Option String
  mtime : Int

/-- VectorDb.findByFilePath: every record whose chunk belongs to the path. -/
def findByFilePath (path : String) (st : Store) : Store :=
  st.filter fun it => it.meta.filePath = path

/-- VectorDb.deleteByFilePath: delete, one by one, every record found for
the path. -/
def deleteByFilePath (path : String) (st : Store) : Store :=
  (findByFilePath path st).foldl (fun s it => deleteItem it.id s) st

/-- The successful upsert loop: fold the upsert step over the batch. -/
def upsertAll (st : Store) (entries : List (VectorItem × List ℚ)) : Store :=
  entries.foldl (fun s e => upsertStep s e.1 e.2) st

/-- The batch indexFile builds for a file: each chunk paired with its
embedding (embedBatch is order-preserving). -/
def freshEntries (cfg : IndexConfig) (parse : String → Option (List CodeChunk))
    (embed : String → List ℚ) (content path : String) (mtime : Int) :
    List (VectorItem × List ℚ) :=
  (fileChunks cfg parse content path mtime).map fun c => (c, embed c.text)

/-- Indexer.indexFile: unreadable or empty content and non-indexed
extensions return indexed 0 without touching the store; otherwise delete
the existing entries of the path, chunk, embed (a none embedding models the
embedding backend throwing) and upsert the batch; the error branch models
the per-file exception propagating out of indexFile. -/
def indexFile (cfg : IndexConfig) (parse : String → Option (List CodeChunk))
    (embed : String → Option (List ℚ)) (fails : Nat → Bool)
    (st : Store) (f : FileInput) : Store × Except Unit Nat :=
  match f.content with
  | none => (st, .ok 0)
  | some content =>
      if content = "" then (st, .ok 0)
      else
        let ext := lowerStr (extname f.path)
        if ¬ (isCodeExt ext = true) ∧ ¬ (isDocsExt ext = true) then (st, .ok 0)
        else
          let st1 := deleteByFilePath f.path st
          let chunks := fileChunks cfg parse content f.path f.mtime
          if chunks.isEmpty then (st1, .ok 0)
          else
            match (chunks.map fun c => c.text).mapM embed with
            | none => (st1, .error ())
            | some embeddings =>
                match upsertBatch fails st1 (chunks.zip embeddings) with
                | .ok st2 => (st2, .ok chunks.length)
                | .error _ => (st1, .error ())

/-- The aggregate statistics of Indexer.indexWorkspace. -/
structure WsStats where
  indexed : Nat
  skipped : Nat
  errors : Nat
deriving DecidableEq, Repr

/-- The aggregate statistics of Indexer.indexIncremental (it has no skipped
counter). -/
structure IncStats where
  indexed : Nat
  errors : Nat
deriving DecidableEq, Repr

/-- The loop body of Indexer.indexWorkspace. -/
def wsStep (cfg : IndexConfig) (parse : String → Option (List CodeChunk))
    (embed : String → Option (List ℚ)) (fails : Nat → Bool) :
    Store × WsStats → FileInput → Store × WsStats
  | (st, s), f =>
      match indexFile cfg parse embed fails st f with
      | (st1, .ok n) =>
          if 0 < n then (st1, { s with indexed := s.indexed + n })
          else (st1, { s with skipped := s.skipped + 1 })
      | (st1, .error _) => (st1, { s with errors := s.errors + 1 })

/-- Indexer.indexWorkspace over an already-found file list (file discovery,
progress reporting and the batching of 10 files between progress reports
are external; the uncancelled run processes every file): per file, a
positive indexed count adds to indexed, a zero count increments skipped,
and a per-file exception increments errors. -/
def indexWorkspace (cfg : IndexConfig) (parse : String → Option (List CodeChunk))
    (embed : String → Option (List ℚ)) (fails : Nat → Bool)
    (st : Store) (files : List FileInput) : Store × WsStats :=
  files.foldl (wsStep cfg parse embed fails)
    (st, { indexed := 0, skipped := 0, errors := 0 })

/-- The loop body of Indexer.indexIncremental. -/
def incStep (cfg : IndexConfig) (parse : String → Option (List CodeChunk))
    (embed : String → Option (List ℚ)) (fails : Nat → Bool) :
    Store × IncStats → FileInput → Store × IncStats
  | (st, s), f =>
      match indexFile cfg parse embed fails st f with
      | (st1, .ok n) => (st1, { s with indexed := s.indexed + n })
      | (st1, .error _) => (st1, { s with errors := s.errors + 1 })

/-- Indexer.indexIncremental over the changed-file list: per file the
indexed count is added (zero counts add nothing) and a per-file exception
increments errors. -/
def indexIncremental (cfg : IndexConfig) (parse : String → Option (List CodeChunk))
    (embed : String → Option (List ℚ)) (fails : Nat → Bool)
    (st : Store) (files : List FileInput) : Store × IncStats :=
  files.foldl (incStep cfg parse embed fails) (st, { indexed := 0, errors := 0 })

theorem chunkMarkdownGo_ranges (filePath : String) (lastModified : Int) :
    ∀ (rest : List String) (i sl : Nat) (hdr : String) (cur : List String),
      cur ≠ [] →
      (chunkMarkdownGo filePath lastModified i sl hdr cur rest).map
          (fun c => (c.metadata.startLine, c.metadata.endLine)) =
        mkRanges sl ((headingIdxs rest).map (· + i)) (i + rest.length) := by
  intro rest
  induction rest with
  | nil =>
      intro i sl hdr cur hcur
      have hne : cur.isEmpty = false := by
        cases cur with
        | nil => exact absurd rfl hcur
        | cons a l => rfl
      simp [chunkMarkdownGo, hne, headingIdxs, mkRanges, mkDocChunk]
  | cons line rs ih =>
      intro i sl hdr cur hcur
      have hne : cur.isEmpty = false := by
        cases cur with
        | nil => exact absurd rfl hcur
        | cons a l => rfl
      by_cases hh : isHeadingLine line = true
      · have hstep : headingIdxs (line :: rs) = 0 :: (headingIdxs rs).map (· + 1) := by
          simp [headingIdxs, hh]
        have hmap : (headingIdxs (line :: rs)).map (· + i) =
            i :: (headingIdxs rs).map (· + (i + 1)) := by
          rw [hstep, List.map_cons, List.map_map]
          refine congrArg₂ List.cons (by omega) ?_
          apply List.map_congr_left
          intro a _
          simp only [Function.comp]
          omega
        rw [hmap]
        simp only [chunkMarkdownGo, hh, if_true, hne, Bool.false_eq_true, if_false,
          List.map_append]
        rw [ih (i + 1) (i + 1) (headingTitle line) [line] (by simp)]
        simp only [List.map, mkDocChunk, mkRanges, List.length_cons]
        rw [List.singleton_append]
        refine congrArg₂ List.cons rfl ?_
        congr 1
        omega
      · have hmap : (headingIdxs (line :: rs)).map (· + i) =
            (headingIdxs rs).map (· + (i + 1)) := by
          have hstep : headingIdxs (line :: rs) = (headingIdxs rs).map (· + 1) := by
            simp [headingIdxs, hh]
          rw [hstep, List.map_map]
          apply List.map_congr_left
          intro a _
          simp only [Function.comp]
          omega
        rw [hmap]
        simp only [chunkMarkdownGo]
        rw [if_neg hh]
        rw [ih (i + 1) sl hdr (cur ++ [line]) (by simp)]
        congr 1
        simp only [List.length_cons]
        omega

theorem chunkMarkdown_ranges (content filePath : String) (lastModified : Int) :
    (chunkMarkdown content filePath lastModified).map
        (fun c => (c.metadata.startLine, c.metadata.endLine)) =
      specRanges (splitLines content) := by
  unfold chunkMarkdown
  generalize splitLines content = lines
  cases lines with
  | nil => simp [chunkMarkdownGo, specRanges, headingIdxs]
  | cons line rs =>
      have hlen : 1 + rs.length = rs.length + 1 := Nat.add_comm 1 rs.length
      by_cases hh : isHeadingLine line = true
      · have hstep : headingIdxs (line :: rs) = 0 :: (headingIdxs rs).map (· + 1) := by
          simp [headingIdxs, hh]
        simp only [chunkMarkdownGo, hh, if_true, List.isEmpty_nil, List.nil_append]
        rw [chunkMarkdownGo_ranges filePath lastModified rs 1 1 (headingTitle line) [line]
          (by simp)]
        rw [hlen]
        unfold specRanges
        rw [hstep]
        simp only [if_pos rfl, List.nil_append, List.length_cons]
        rfl
      · have hstep : headingIdxs (line :: rs) = (headingIdxs rs).map (· + 1) := by
          simp [headingIdxs, hh]
        simp only [chunkMarkdownGo]
        rw [if_neg hh]
        rw [chunkMarkdownGo_ranges filePath lastModified rs 1 1 "" ([] ++ [line]) (by simp)]
        rw [hlen]
        unfold specRanges
        rw [hstep]
        cases hhs : headingIdxs rs with
        | nil => simp [mkRanges]
        | cons a t =>
            simp only [List.map_cons, mkRanges, List.length_cons]
            have hne : ¬ (a + 1 = 0) := by omega
            rw [if_neg hne]
            rw [List.singleton_append]

/-- C8: for every markdown content the chunk (startLine, endLine) ranges
are exactly the spec ranges: a new chunk starts at every heading line and
runs to the line before the next heading or to the last line, a non-heading
preamble before the first heading is emitted as its own chunk; an empty
file is never chunked (indexFile returns indexed 0 and leaves the store
untouched); and the two-line file with headings # A then ## B produces
exactly 2 chunks with ranges (1,1) and (2,2). -/
theorem chunkMarkdown_boundaries :
    (∀ (content filePath : String) (lastModified : Int),
      (chunkMarkdown content filePath lastModified).map
          (fun c => (c.metadata.startLine, c.metadata.endLine)) =
        specRanges (splitLines content)) ∧
    (∀ (cfg : IndexConfig) (parse : String → Option (List CodeChunk))
        (embed : String → Option (List ℚ)) (fails : Nat → Bool)
        (st : Store) (path : String) (mtime : Int),
      indexFile cfg parse embed fails st { path := path, content := some "", mtime := mtime } =
        (st, .ok 0)) ∧
    (chunkMarkdown "# A\n## B" "doc.md" 0).map
        (fun c => (c.metadata.startLine, c.metadata.endLine)) = [(1, 1), (2, 2)] ∧
    (chunkMarkdown "# A\n## B" "doc.md" 0).length = 2 := by
  refine ⟨chunkMarkdown_ranges, ?_, by decide, by decide⟩
  intro cfg parse embed fails st path mtime
  rfl

theorem toDigitsCore_eq_digits (b : Nat) (hb : 1 < b) :
    ∀ (f n : Nat) (acc : List Char), 0 < n → n < f →
      Nat.toDigitsCore b f n acc =
        ((Nat.digits b n).reverse.map Nat.digitChar) ++ acc := by
  intro f
  induction f with
  | zero =>
      intro n acc h0 hf
      exact absurd hf (by omega)
  | succ f ih =>
      intro n acc h0 hf
      have hdig : Nat.digits b n = n % b :: Nat.digits b (n / b) :=
        Nat.digits_def' hb h0
      rw [hdig]
      simp only [List.reverse_cons, List.map_append, List.map]
      by_cases hq : n / b = 0
      · show (if n / b = 0 then Nat.digitChar (n % b) :: acc else _) = _
        rw [if_pos hq, hq]
        simp [Nat.digits_zero]
      · show (if n / b = 0 then Nat.digitChar (n % b) :: acc
          else Nat.toDigitsCore b f (n / b) (Nat.digitChar (n % b) :: acc)) = _
        rw [if_neg hq]
        have hlt : n / b < n := Nat.div_lt_self h0 hb
        rw [ih (n / b) (Nat.digitChar (n % b) :: acc) (Nat.pos_of_ne_zero hq) (by omega)]
        simp

theorem natRepr_pos_eq (n : Nat) (h0 : 0 < n) :
    Nat.repr n = ((Nat.digits 10 n).reverse.map Nat.digitChar).asString := by
  show (Nat.toDigitsCore 10 (n + 1) n []).asString = _
  rw [toDigitsCore_eq_digits 10 (by omega) (n + 1) n [] h0 (by omega)]
  simp

theorem digitChar_injOn_lt10 :
    ∀ a, a < 10 → ∀ c, c < 10 → Nat.digitChar a = Nat.digitChar c → a = c := by
  decide

theorem digitChar_ne_zero_char :
    ∀ a, a < 10 → a ≠ 0 → Nat.digitChar a ≠ '0' := by
  decide

theorem map_digitChar_inj :
    ∀ (l1 l2 : List Nat), (∀ x ∈ l1, x < 10) → (∀ x ∈ l2, x < 10) →
      l1.map Nat.digitChar = l2.map Nat.digitChar → l1 = l2 := by
  intro l1
  induction l1 with
  | nil =>
      intro l2 _ _ h
      cases l2 with
      | nil => rfl
      | cons c cs => exact absurd h (by simp)
  | cons a as ih =>
      intro l2 h1 h2 h
      cases l2 with
      | nil => exact absurd h (by simp)
      | cons c cs =>
          simp only [List.map_cons, List.cons.injEq] at h
          have ha := h1 a (List.mem_cons_self a as)
          have hc := h2 c (List.mem_cons_self c cs)
          have hac := digitChar_injOn_lt10 a ha c hc h.1
          rw [hac, ih cs (fun x hx => h1 x (List.mem_cons_of_mem a hx))
            (fun x hx => h2 x (List.mem_cons_of_mem c hx)) h.2]

theorem asString_inj {l1 l2 : List Char} (h : l1.asString = l2.asString) :
    l1 = l2 :=
  congrArg String.data h

theorem natRepr_ne_zero_repr (n : Nat) (hn : 0 < n) : Nat.repr n ≠ Nat.repr 0 := by
  intro h
  have h0 : Nat.repr 0 = (['0'] : List Char).asString := rfl
  rw [natRepr_pos_eq n hn, h0] at h
  have hd : (Nat.digits 10 n).reverse.map Nat.digitChar = ['0'] := asString_inj h
  have hne : Nat.digits 10 n ≠ [] := Nat.digits_ne_nil_iff_ne_zero.mpr (by omega)
  cases hdig : Nat.digits 10 n with
  | nil => exact hne hdig
  | cons d ds =>
      rw [hdig] at hd
      cases hds : ds.reverse with
      | nil =>
          have hds_nil : ds = [] := by
            have := congrArg List.reverse hds
            simpa using this
          subst hds_nil
          simp only [List.reverse_cons, List.reverse_nil, List.nil_append,
            List.map, List.cons.injEq] at hd
          have hdval : Nat.digitChar d = '0' := hd.1
          have hdlt : d < 10 := Nat.digits_lt_base (by omega)
            (by rw [hdig]; exact List.mem_cons_self d [])
          have hdlast : d ≠ 0 := by
            have hgl := Nat.getLast_digit_ne_zero 10 (m := n) (by omega)
            have hlast : (Nat.digits 10 n).getLast
                (Nat.digits_ne_nil_iff_ne_zero.mpr (by omega)) = d := by
              simp [hdig]
            rw [hlast] at hgl
            exact hgl
          exact digitChar_ne_zero_char d hdlt hdlast hdval
      | cons e es =>
          have hrev : (d :: ds).reverse = e :: (es ++ [d]) := by
            rw [List.reverse_cons, hds]
            rfl
          rw [hrev] at hd
          simp at hd

theorem natRepr_injective : Function.Injective Nat.repr := by
  intro m n h
  rcases Nat.eq_zero_or_pos m with hm | hm
  · rcases Nat.eq_zero_or_pos n with hn | hn
    · rw [hm, hn]
    · exfalso
      subst hm
      exact natRepr_ne_zero_repr n hn h.symm
  · rcases Nat.eq_zero_or_pos n with hn | hn
    · exfalso
      subst hn
      exact natRepr_ne_zero_repr m hm h
    · rw [natRepr_pos_eq m hm, natRepr_pos_eq n hn] at h
      have hd := asString_inj h
      have hmm := map_digitChar_inj (Nat.digits 10 m).reverse (Nat.digits 10 n).reverse
        (fun x hx => Nat.digits_lt_base (by omega) (List.mem_reverse.mp hx))
        (fun x hx => Nat.digits_lt_base (by omega) (List.mem_reverse.mp hx)) hd
      have hrev := List.reverse_injective hmm
      exact Nat.digits_inj_iff.mp hrev

theorem string_append_right_inj (p : String) {a b : String}
    (h : p ++ a = p ++ b) : a = b := by
  apply String.ext
  have hd := congrArg String.data h
  rw [String.data_append, String.data_append] at hd
  exact List.append_cancel_left hd

theorem headingIdxs_sorted (lines : List String) :
    (headingIdxs lines).Pairwise (· < ·) := by
  induction lines with
  | nil => simp [headingIdxs]
  | cons l rs ih =>
      have hmap : ((headingIdxs rs).map (· + 1)).Pairwise (· < ·) :=
        (List.pairwise_map).mpr (ih.imp (by omega))
      by_cases hh : isHeadingLine l = true
      · simp only [headingIdxs, hh, if_true, List.singleton_append]
        refine List.Pairwise.cons ?_ hmap
        intro b hb
        rw [List.mem_map] at hb
        obtain ⟨a, _, rfl⟩ := hb
        omega
      · simp only [headingIdxs, hh, Bool.false_eq_true, if_false, List.nil_append]
        exact hmap

theorem mkRanges_fst_ge :
    ∀ (bs : List Nat) (sl endL x : Nat), bs.Pairwise (· < ·) →
      (∀ b ∈ bs, sl ≤ b) →
      x ∈ (mkRanges sl bs endL).map Prod.fst → sl ≤ x := by
  intro bs
  induction bs with
  | nil =>
      intro sl endL x _ _ hx
      simp [mkRanges] at hx
      omega
  | cons b bs ih =>
      intro sl endL x hp hle hx
      simp only [mkRanges, List.map, List.mem_cons] at hx
      rcases hx with rfl | hx
      · exact le_refl _
      · have hble : ∀ c ∈ bs, b + 1 ≤ c := by
          intro c hc
          have := (List.pairwise_cons.mp hp).1 c hc
          omega
        have hrec := ih (b + 1) endL x (List.Pairwise.of_cons hp) hble hx
        have := hle b (List.mem_cons_self b bs)
        omega

theorem mkRanges_fst_sorted :
    ∀ (bs : List Nat) (sl endL : Nat), bs.Pairwise (· < ·) →
      (∀ b ∈ bs, sl ≤ b) →
      ((mkRanges sl bs endL).map Prod.fst).Pairwise (· < ·) := by
  intro bs
  induction bs with
  | nil =>
      intro sl endL _ _
      simp [mkRanges]
  | cons b bs ih =>
      intro sl endL hp hle
      have hble : ∀ c ∈ bs, b + 1 ≤ c := by
        intro c hc
        have := (List.pairwise_cons.mp hp).1 c hc
        omega
      simp only [mkRanges, List.map]
      refine List.Pairwise.cons ?_ ?_
      · intro x hx
        have hx1 := mkRanges_fst_ge bs (b + 1) endL x (List.Pairwise.of_cons hp) hble hx
        have := hle b (List.mem_cons_self b bs)
        omega
      · exact ih (b + 1) endL (List.Pairwise.of_cons hp) hble

theorem specRanges_fst_sorted (lines : List String) :
    ((specRanges lines).map Prod.fst).Pairwise (· < ·) := by
  have hsort := headingIdxs_sorted lines
  cases hhi : headingIdxs lines with
  | nil =>
      by_cases he : lines.isEmpty
      · simp [specRanges, hhi, he]
      · simp [specRanges, hhi, he]
  | cons b bs =>
      rw [hhi] at hsort
      have hbs := List.Pairwise.of_cons hsort
      have hblt := (List.pairwise_cons.mp hsort).1
      simp only [specRanges, hhi]
      by_cases hb : b = 0
      · rw [if_pos hb, List.nil_append]
        refine mkRanges_fst_sorted bs (b + 1) lines.length hbs ?_
        intro c hc
        have := hblt c hc
        omega
      · rw [if_neg hb, List.singleton_append, List.map_cons]
        refine List.Pairwise.cons ?_ ?_
        · intro x hx
          refine lt_of_lt_of_le ?_ (mkRanges_fst_ge bs (b + 1) lines.length x hbs
            (fun c hc => by have := hblt c hc; omega) hx)
          omega
        · refine mkRanges_fst_sorted bs (b + 1) lines.length hbs ?_
          intro c hc
          have := hblt c hc
          omega

theorem chunkMarkdownGo_id (filePath : String) (lastModified : Int) :
    ∀ (rest : List String) (i sl : Nat) (hdr : String) (cur : List String),
      ∀ c ∈ chunkMarkdownGo filePath lastModified i sl hdr cur rest,
        c.id = filePath ++ "#" ++ Nat.repr c.metadata.startLine := by
  intro rest
  induction rest with
  | nil =>
      intro i sl hdr cur c hc
      simp only [chunkMarkdownGo] at hc
      cases hx : cur.isEmpty with
      | false =>
          rw [hx] at hc
          simp only [Bool.false_eq_true, if_false, List.mem_singleton] at hc
          subst hc
          rfl
      | true =>
          rw [hx] at hc
          simp at hc
  | cons line rs ih =>
      intro i sl hdr cur c hc
      simp only [chunkMarkdownGo] at hc
      by_cases hh : isHeadingLine line = true
      · rw [if_pos hh] at hc
        rcases List.mem_append.mp hc with hx | hx
        · cases he : cur.isEmpty with
          | false =>
              rw [he] at hx
              simp only [Bool.false_eq_true, if_false, List.mem_singleton] at hx
              subst hx
              rfl
          | true =>
              rw [he] at hx
              simp at hx
        · exact ih (i + 1) (i + 1) (headingTitle line) [line] c hx
      · rw [if_neg hh] at hc
        exact ih (i + 1) sl hdr (cur ++ [line]) c hc

theorem chunkMarkdown_ids_nodup (content filePath : String) (lastModified : Int) :
    ((chunkMarkdown content filePath lastModified).map fun c => c.id).Nodup := by
  have hid : (chunkMarkdown content filePath lastModified).map (fun c => c.id) =
      ((chunkMarkdown content filePath lastModified).map
        fun c => c.metadata.startLine).map
          (fun n => filePath ++ "#" ++ Nat.repr n) := by
    rw [List.map_map]
    apply List.map_congr_left
    intro c hc
    exact chunkMarkdownGo_id filePath lastModified (splitLines content) 0 1 "" [] c hc
  rw [hid]
  apply List.Nodup.map
  · intro a b hab
    exact natRepr_injective (string_append_right_inj (filePath ++ "#") hab)
  · have h1 : (chunkMarkdown content filePath lastModified).map
        (fun c => c.metadata.startLine) =
        ((chunkMarkdown content filePath lastModified).map
          (fun c => (c.metadata.startLine, c.metadata.endLine))).map Prod.fst := by
      rw [List.map_map]
      rfl
    rw [h1, chunkMarkdown_ranges]
    exact (specRanges_fst_sorted _).imp (fun h => Nat.ne_of_lt h)

theorem simpleChunkGo_facts (cfg : IndexConfig) (filePath : String)
    (type : ChunkType) (lastModified : Int) (lines : List String) :
    ∀ i, ∀ c ∈ simpleChunkGo cfg filePath type lastModified lines i,
      c.id = filePath ++ "#" ++ Nat.repr c.metadata.startLine ∧
        i < c.metadata.startLine := by
  intro i
  induction i using simpleChunkGo.induct cfg filePath type lastModified lines with
  | case1 i h ih =>
      intro c hc
      rw [simpleChunkGo, dif_pos h] at hc
      rcases List.mem_append.mp hc with hx | hx
      · by_cases ht : (String.intercalate "\n" ((lines.drop i).take cfg.chunkSize)).trim ≠ ""
        · rw [if_pos ht] at hx
          simp only [List.mem_singleton] at hx
          subst hx
          refine ⟨rfl, ?_⟩
          show i < i + 1
          omega
        · rw [if_neg ht] at hx
          cases hx
      · have hrec := ih c hx
        have hst : 0 < cfg.chunkSize - cfg.chunkOverlap :=
          Nat.sub_pos_of_lt cfg.overlap_lt
        exact ⟨hrec.1, by omega⟩
  | case2 i h =>
      intro c hc
      rw [simpleChunkGo, dif_neg h] at hc
      cases hc

theorem simpleChunkGo_startLine_sorted (cfg : IndexConfig) (filePath : String)
    (type : ChunkType) (lastModified : Int) (lines : List String) :
    ∀ i, ((simpleChunkGo cfg filePath type lastModified lines i).map
      fun c => c.metadata.startLine).Pairwise (· < ·) := by
  intro i
  induction i using simpleChunkGo.induct cfg filePath type lastModified lines with
  | case1 i h ih =>
      rw [simpleChunkGo, dif_pos h]
      rw [List.map_append]
      rw [List.pairwise_append]
      refine ⟨?_, ih, ?_⟩
      · by_cases ht : (String.intercalate "\n" ((lines.drop i).take cfg.chunkSize)).trim ≠ ""
        · rw [if_pos ht]
          simp
        · rw [if_neg ht]
          simp
      · intro a ha b hb
        rw [List.mem_map] at hb
        obtain ⟨c, hc, rfl⟩ := hb
        have hrec := (simpleChunkGo_facts cfg filePath type lastModified lines _ c hc).2
        have hst : 0 < cfg.chunkSize - cfg.chunkOverlap :=
          Nat.sub_pos_of_lt cfg.overlap_lt
        by_cases ht : (String.intercalate "\n" ((lines.drop i).take cfg.chunkSize)).trim ≠ ""
        · rw [if_pos ht] at ha
          simp only [List.map, List.mem_singleton] at ha
          subst ha
          show i + 1 < c.metadata.startLine
          omega
        · rw [if_neg ht] at ha
          simp at ha
  | case2 i h =>
      rw [simpleChunkGo, dif_neg h]
      simp

theorem simpleChunk_ids_nodup (cfg : IndexConfig) (content filePath : String)
    (type : ChunkType) (lastModified : Int) :
    ((simpleChunk cfg content filePath type lastModified).map fun c => c.id).Nodup := by
  unfold simpleChunk
  have hid : (simpleChunkGo cfg filePath type lastModified (splitLines content) 0).map
      (fun c => c.id) =
      ((simpleChunkGo cfg filePath type lastModified (splitLines content) 0).map
        fun c => c.metadata.startLine).map (fun n => filePath ++ "#" ++ Nat.repr n) := by
    rw [List.map_map]
    apply List.map_congr_left
    intro c hc
    exact (simpleChunkGo_facts cfg filePath type lastModified (splitLines content) 0 c hc).1
  rw [hid]
  apply List.Nodup.map
  · intro a b hab
    exact natRepr_injective (string_append_right_inj (filePath ++ "#") hab)
  · exact (simpleChunkGo_startLine_sorted cfg filePath type lastModified
      (splitLines content) 0).imp (fun h => Nat.ne_of_lt h)

theorem chunkCode_parsed_ids_nodup (cfg : IndexConfig)
    (parse : String → Option (List CodeChunk)) (content filePath : String)
    (m : Int) (cc : List CodeChunk) (hp : parse content = some cc)
    (hkeys : (cc.enum.map fun p => p.2.type ++ "#" ++ nameOrIdx p.2.name p.1).Nodup) :
    ((chunkCode cfg parse content filePath m).map fun c => c.id).Nodup := by
  unfold chunkCode
  rw [hp]
  have heq : ((cc.enum.map fun p =>
      ({ id := filePath ++ "#" ++ p.2.type ++ "#" ++ nameOrIdx p.2.name p.1
         text := p.2.text
         metadata := { type := ChunkType.code, filePath := filePath
                       startLine := p.2.startLine, endLine := p.2.endLine
                       language := some (if lowerStr (extname filePath) = ".ts" ∨
                           lowerStr (extname filePath) = ".tsx" then "typescript"
                         else "javascript")
                       symbolName := p.2.name
                       lastModified := m } } : VectorItem)).map fun c => c.id) =
      (cc.enum.map fun p => p.2.type ++ "#" ++ nameOrIdx p.2.name p.1).map
        (fun k => (filePath ++ "#") ++ k) := by
    rw [List.map_map, List.map_map]
    apply List.map_congr_left
    intro p _
    show filePath ++ "#" ++ p.2.type ++ "#" ++ nameOrIdx p.2.name p.1 =
      (filePath ++ "#") ++ (p.2.type ++ "#" ++ nameOrIdx p.2.name p.1)
    simp [String.append_assoc]
  rw [heq]
  exact List.Nodup.map (fun a b hab => string_append_right_inj (filePath ++ "#") hab) hkeys

/-- Counterexample to C9 as stated: a JavaScript file with two top-level
function declarations of the same name (legal JS, the second shadows the
first; both parsed chunks exceed the 10-character noise filter) makes
chunkCode assign both chunks the same id filePath#type#name, so the ids of
the chunks of one file are not pairwise distinct. -/
theorem chunkCode_duplicate_ids :
    ((chunkCode defaultIndexConfig
        (fun _ => some
          [{ type := "function", name := some "foo"
             text := "function foo() { return 1 }", startLine := 1, endLine := 1 },
           { type := "function", name := some "foo"
             text := "function foo() { return 2 }", startLine := 2, endLine := 2 }])
        "function foo() { return 1 }\nfunction foo() { return 2 }" "f.js" 0).map
      fun c => c.id) = ["f.js#function#foo", "f.js#function#foo"] ∧
    ¬ (((chunkCode defaultIndexConfig
        (fun _ => some
          [{ type := "function", name := some "foo"
             text := "function foo() { return 1 }", startLine := 1, endLine := 1 },
           { type := "function", name := some "foo"
             text := "function foo() { return 2 }", startLine := 2, endLine := 2 }])
        "function foo() { return 1 }\nfunction foo() { return 2 }" "f.js" 0).map
      fun c => c.id)).Nodup := by
  constructor
  · decide
  · decide

/-- C9 amended: markdown chunk ids (filePath#startLine) and fallback
line-window chunk ids are always pairwise distinct for a file, and the ids
of tree-sitter code chunks (filePath#type#(name or index)) are pairwise
distinct whenever the parsed (type, name-or-index) key strings are pairwise
distinct - which the counterexample shows is not guaranteed when a file
repeats a symbol name; and chunk ids are stable: the markdown ids do not
depend on the modification time, only on content and path (chunking itself
is a pure function of its inputs in this embedding). -/
theorem chunk_ids_unique :
    (∀ (content filePath : String) (m : Int),
      ((chunkMarkdown content filePath m).map fun c => c.id).Nodup) ∧
    (∀ (cfg : IndexConfig) (content filePath : String) (t : ChunkType) (m : Int),
      ((simpleChunk cfg content filePath t m).map fun c => c.id).Nodup) ∧
    (∀ (cfg : IndexConfig) (parse : String → Option (List CodeChunk))
        (content filePath : String) (m : Int) (cc : List CodeChunk),
      parse content = some cc →
      (cc.enum.map fun p => p.2.type ++ "#" ++ nameOrIdx p.2.name p.1).Nodup →
      ((chunkCode cfg parse content filePath m).map fun c => c.id).Nodup) ∧
    (∀ (content filePath : String) (m1 m2 : Int),
      (chunkMarkdown content filePath m1).map (fun c => c.id) =
        (chunkMarkdown content filePath m2).map (fun c => c.id)) := by
  refine ⟨chunkMarkdown_ids_nodup, simpleChunk_ids_nodup,
    chunkCode_parsed_ids_nodup, ?_⟩
  intro content filePath m1 m2
  have hgen : ∀ m : Int, (chunkMarkdown content filePath m).map (fun c => c.id) =
      ((specRanges (splitLines content)).map Prod.fst).map
        (fun n => filePath ++ "#" ++ Nat.repr n) := by
    intro m
    have hid : (chunkMarkdown content filePath m).map (fun c => c.id) =
        ((chunkMarkdown content filePath m).map
          fun c => c.metadata.startLine).map (fun n => filePath ++ "#" ++ Nat.repr n) := by
      rw [List.map_map]
      apply List.map_congr_left
      intro c hc
      exact chunkMarkdownGo_id filePath m (splitLines content) 0 1 "" [] c hc
    rw [hid]
    have h1 : (chunkMarkdown content filePath m).map (fun c => c.metadata.startLine) =
        ((chunkMarkdown content filePath m).map
          (fun c => (c.metadata.startLine, c.metadata.endLine))).map Prod.fst := by
      rw [List.map_map]
      rfl
    rw [h1, chunkMarkdown_ranges]
  rw [hgen m1, hgen m2]

/-- Witness for the amended C9: a parse result with two distinct symbol
names has pairwise distinct chunk ids. -/
theorem chunk_ids_unique_witness :
    ((chunkCode defaultIndexConfig
        (fun _ => some
          [{ type := "function", name := some "foo"
             text := "function foo() { return 1 }", startLine := 1, endLine := 1 },
           { type := "function", name := some "bar"
             text := "function bar() { return 2 }", startLine := 2, endLine := 2 }])
        "function foo() { return 1 }\nfunction bar() { return 2 }" "f.js" 0).map
      fun c => c.id).Nodup := by
  exact chunk_ids_unique.2.2.1 defaultIndexConfig
    (fun _ => some
      [{ type := "function", name := some "foo"
         text := "function foo() { return 1 }", startLine := 1, endLine := 1 },
       { type := "function", name := some "bar"
         text := "function bar() { return 2 }", startLine := 2, endLine := 2 }])
    "function foo() { return 1 }\nfunction bar() { return 2 }" "f.js" 0
    [{ type := "function", name := some "foo"
       text := "function foo() { return 1 }", startLine := 1, endLine := 1 },
     { type := "function", name := some "bar"
       text := "function bar() { return 2 }", startLine := 2, endLine := 2 }]
    rfl (by decide)

theorem indexWorkspace_shift (cfg : IndexConfig)
    (parse : String → Option (List CodeChunk)) (embed : String → Option (List ℚ))
    (fails : Nat → Bool) :
    ∀ (files : List FileInput) (st : Store) (s : WsStats),
      files.foldl (wsStep cfg parse embed fails) (st, s) =
        ((indexWorkspace cfg parse embed fails st files).1,
         { indexed := s.indexed + (indexWorkspace cfg parse embed fails st files).2.indexed
           skipped := s.skipped + (indexWorkspace cfg parse embed fails st files).2.skipped
           errors := s.errors + (indexWorkspace cfg parse embed fails st files).2.errors }) := by
  intro files
  induction files with
  | nil =>
      intro st s
      simp [indexWorkspace]
  | cons f files ih =>
      intro st s
      have hiw : indexWorkspace cfg parse embed fails st (f :: files) =
          List.foldl (wsStep cfg parse embed fails)
            (wsStep cfg parse embed fails (st, ⟨0, 0, 0⟩) f) files := rfl
      rw [List.foldl_cons, hiw]
      rcases hres : indexFile cfg parse embed fails st f with ⟨st1, r⟩
      rcases r with e | n
      · rw [show wsStep cfg parse embed fails (st, s) f =
            (st1, { s with errors := s.errors + 1 }) by
          simp only [wsStep, hres]]
        rw [show wsStep cfg parse embed fails (st, ⟨0, 0, 0⟩) f =
            (st1, ⟨0, 0, 0 + 1⟩) by
          simp only [wsStep, hres]]
        rw [ih, ih]
        refine congrArg₂ Prod.mk rfl ?_
        simp only [WsStats.mk.injEq]
        refine ⟨by omega, by omega, by omega⟩
      · by_cases hn : 0 < n
        · rw [show wsStep cfg parse embed fails (st, s) f =
              (st1, { s with indexed := s.indexed + n }) by
            simp only [wsStep, hres, if_pos hn]]
          rw [show wsStep cfg parse embed fails (st, ⟨0, 0, 0⟩) f =
              (st1, ⟨0 + n, 0, 0⟩) by
            simp only [wsStep, hres, if_pos hn]]
          rw [ih, ih]
          refine congrArg₂ Prod.mk rfl ?_
          simp only [WsStats.mk.injEq]
          refine ⟨by omega, by omega, by omega⟩
        · rw [show wsStep cfg parse embed fails (st, s) f =
              (st1, { s with skipped := s.skipped + 1 }) by
            simp only [wsStep, hres, if_neg hn]]
          rw [show wsStep cfg parse embed fails (st, ⟨0, 0, 0⟩) f =
              (st1, ⟨0, 0 + 1, 0⟩) by
            simp only [wsStep, hres, if_neg hn]]
          rw [ih, ih]
          refine congrArg₂ Prod.mk rfl ?_
          simp only [WsStats.mk.injEq]
          refine ⟨by omega, by omega, by omega⟩

theorem indexIncremental_shift (cfg : IndexConfig)
    (parse : String → Option (List CodeChunk)) (embed : String → Option (List ℚ))
    (fails : Nat → Bool) :
    ∀ (files : List FileInput) (st : Store) (s : IncStats),
      files.foldl (incStep cfg parse embed fails) (st, s) =
        ((indexIncremental cfg parse embed fails st files).1,
         { indexed := s.indexed + (indexIncremental cfg parse embed fails st files).2.indexed
           errors := s.errors + (indexIncremental cfg parse embed fails st files).2.errors }) := by
  intro files
  induction files with
  | nil =>
      intro st s
      simp [indexIncremental]
  | cons f files ih =>
      intro st s
      have hiw : indexIncremental cfg parse embed fails st (f :: files) =
          List.foldl (incStep cfg parse embed fails)
            (incStep cfg parse embed fails (st, ⟨0, 0⟩) f) files := rfl
      rw [List.foldl_cons, hiw]
      rcases hres : indexFile cfg parse embed fails st f with ⟨st1, r⟩
      rcases r with e | n
      · rw [show incStep cfg parse embed fails (st, s) f =
            (st1, { s with errors := s.errors + 1 }) by
          simp only [incStep, hres]]
        rw [show incStep cfg parse embed fails (st, ⟨0, 0⟩) f =
            (st1, ⟨0, 0 + 1⟩) by
          simp only [incStep, hres]]
        rw [ih, ih]
        refine congrArg₂ Prod.mk rfl ?_
        simp only [IncStats.mk.injEq]
        refine ⟨by omega, by omega⟩
      · rw [show incStep cfg parse embed fails (st, s) f =
            (st1, { s with indexed := s.indexed + n }) by
          simp only [incStep, hres]]
        rw [show incStep cfg parse embed fails (st, ⟨0, 0⟩) f =
            (st1, ⟨0 + n, 0⟩) by
          simp only [incStep, hres]]
        rw [ih, ih]
        refine congrArg₂ Prod.mk rfl ?_
        simp only [IncStats.mk.injEq]
        refine ⟨by omega, by omega⟩

/-- Counterexample to C7 as stated: a changed-file list containing one file
that yields zero chunks (an ok run with indexed 0). indexIncremental does
not count it as skipped - its statistics record has no skipped field at all
and the run returns indexed 0, errors 0 - while indexWorkspace on the same
file counts skipped 1. -/
theorem indexIncremental_no_skipped :
    indexIncremental defaultIndexConfig (fun _ => some [])
        (fun _ => some [1]) (fun _ => false) []
        [{ path := "a.ts", content := some "const x = 1", mtime := 0 }] =
      ([], { indexed := 0, errors := 0 }) ∧
    indexWorkspace defaultIndexConfig (fun _ => some [])
        (fun _ => some [1]) (fun _ => false) []
        [{ path := "a.ts", content := some "const x = 1", mtime := 0 }] =
      ([], { indexed := 0, skipped := 1, errors := 0 }) := by
  constructor
  · rfl
  · rfl

/-- C7 amended: both indexing passes always return their aggregate
statistics and never abort: processing fs ++ gs equals processing fs, then
gs from the resulting store, adding the statistics componentwise (so an
erroring file cannot halt the pass), and on a single file indexWorkspace
counts a positive chunk count into indexed, a zero chunk count as
skipped 1, and a per-file exception as errors 1. indexIncremental composes
the same way but returns only {indexed, errors}: it has no skipped counter,
a zero-chunk file adds nothing (the counterexample), and an exception
increments errors. -/
theorem indexing_aggregates (cfg : IndexConfig)
    (parse : String → Option (List CodeChunk)) (embed : String → Option (List ℚ))
    (fails : Nat → Bool) (st : Store) (fs gs : List FileInput) (f : FileInput) :
    indexWorkspace cfg parse embed fails st (fs ++ gs) =
      ((indexWorkspace cfg parse embed fails
          (indexWorkspace cfg parse embed fails st fs).1 gs).1,
       { indexed := (indexWorkspace cfg parse embed fails st fs).2.indexed +
           (indexWorkspace cfg parse embed fails
             (indexWorkspace cfg parse embed fails st fs).1 gs).2.indexed
         skipped := (indexWorkspace cfg parse embed fails st fs).2.skipped +
           (indexWorkspace cfg parse embed fails
             (indexWorkspace cfg parse embed fails st fs).1 gs).2.skipped
         errors := (indexWorkspace cfg parse embed fails st fs).2.errors +
           (indexWorkspace cfg parse embed fails
             (indexWorkspace cfg parse embed fails st fs).1 gs).2.errors }) ∧
    indexWorkspace cfg parse embed fails st [f] =
      ((indexFile cfg parse embed fails st f).1,
       match (indexFile cfg parse embed fails st f).2 with
       | .ok n => if 0 < n then { indexed := n, skipped := 0, errors := 0 }
                  else { indexed := 0, skipped := 1, errors := 0 }
       | .error _ => { indexed := 0, skipped := 0, errors := 1 }) ∧
    indexIncremental cfg parse embed fails st (fs ++ gs) =
      ((indexIncremental cfg parse embed fails
          (indexIncremental cfg parse embed fails st fs).1 gs).1,
       { indexed := (indexIncremental cfg parse embed fails st fs).2.indexed +
           (indexIncremental cfg parse embed fails
             (indexIncremental cfg parse embed fails st fs).1 gs).2.indexed
         errors := (indexIncremental cfg parse embed fails st fs).2.errors +
           (indexIncremental cfg parse embed fails
             (indexIncremental cfg parse embed fails st fs).1 gs).2.errors }) ∧
    indexIncremental cfg parse embed fails st [f] =
      ((indexFile cfg parse embed fails st f).1,
       match (indexFile cfg parse embed fails st f).2 with
       | .ok n => { indexed := n, errors := 0 }
       | .error _ => { indexed := 0, errors := 1 }) := by
  refine ⟨?_, ?_, ?_, ?_⟩
  · show List.foldl (wsStep cfg parse embed fails)
      (st, { indexed := 0, skipped := 0, errors := 0 }) (fs ++ gs) = _
    rw [List.foldl_append]
    have h1 : List.foldl (wsStep cfg parse embed fails)
        (st, { indexed := 0, skipped := 0, errors := 0 }) fs =
        indexWorkspace cfg parse embed fails st fs := rfl
    rw [h1]
    rcases hW : indexWorkspace cfg parse embed fails st fs with ⟨st1, s1⟩
    rw [indexWorkspace_shift cfg parse embed fails gs st1 s1]
  · show wsStep cfg parse embed fails (st, { indexed := 0, skipped := 0, errors := 0 }) f = _
    rcases hres : indexFile cfg parse embed fails st f with ⟨st1, r⟩
    rcases r with e | n
    · simp only [wsStep, hres]
    · by_cases hn : 0 < n
      · simp only [wsStep, hres, if_pos hn]
        refine congrArg₂ Prod.mk rfl ?_
        simp only [WsStats.mk.injEq]
        refine ⟨by omega, trivial, trivial⟩
      · simp only [wsStep, hres, if_neg hn]
  · show List.foldl (incStep cfg parse embed fails)
      (st, { indexed := 0, errors := 0 }) (fs ++ gs) = _
    rw [List.foldl_append]
    have h1 : List.foldl (incStep cfg parse embed fails)
        (st, { indexed := 0, errors := 0 }) fs =
        indexIncremental cfg parse embed fails st fs := rfl
    rw [h1]
    rcases hW : indexIncremental cfg parse embed fails st fs with ⟨st1, s1⟩
    rw [indexIncremental_shift cfg parse embed fails gs st1 s1]
  · show incStep cfg parse embed fails (st, { indexed := 0, errors := 0 }) f = _
    rcases hres : indexFile cfg parse embed fails st f with ⟨st1, r⟩
    rcases r with e | n
    · simp only [incStep, hres]
    · simp only [incStep, hres]
      refine congrArg₂ Prod.mk rfl ?_
      simp only [IncStats.mk.injEq]
      refine ⟨by omega, trivial⟩

theorem upsertStep_eq (s : Store) (item : VectorItem) (embedding : List ℚ) :
    upsertStep s item embedding = deleteItem item.id s ++ [toIndexItem item embedding] := by
  unfold upsertStep
  by_cases h : s.any (fun it => it.id = item.id) = true
  · rw [if_pos h]
  · rw [if_neg h]
    have hall : ∀ x ∈ s, x.id ≠ item.id := by
      intro x hx hcon
      apply h
      rw [List.any_eq_true]
      exact ⟨x, hx, by simp [hcon]⟩
    unfold deleteItem
    rw [List.filter_eq_self.mpr (fun a ha => by simpa using hall a ha)]

theorem upsertLoop_noFail (st0 : Store) :
    ∀ (entries : List (VectorItem × List ℚ)) (i : Nat) (pending : Store),
      upsertLoop (fun _ => false) i pending entries = .ok (upsertAll pending entries) := by
  intro entries
  induction entries with
  | nil =>
      intro i pending
      rfl
  | cons e rest ih =>
      intro i pending
      show (if (fun _ : Nat => false) i then Except.error () else _) = _
      rw [if_neg (by simp)]
      rw [ih (i + 1)]
      have hs : upsertAll pending (e :: rest) =
          upsertAll (upsertStep pending e.1 e.2) rest := rfl
      rw [hs]
      rfl

theorem filter_deleteItem_comm (p : IndexItem → Bool) (id : String) (s : Store) :
    (deleteItem id s).filter p = deleteItem id (s.filter p) := by
  unfold deleteItem
  rw [List.filter_filter, List.filter_filter]
  apply List.filter_congr
  intro x _
  rw [Bool.and_comm]

theorem findByFilePath_upsertAll (p : String) :
    ∀ (entries : List (VectorItem × List ℚ)) (s : Store),
      (∀ e ∈ entries, (e : VectorItem × List ℚ).1.metadata.filePath = p) →
      findByFilePath p (upsertAll s entries) =
        upsertAll (findByFilePath p s) entries := by
  intro entries
  induction entries with
  | nil =>
      intro s _
      rfl
  | cons e rest ih =>
      intro s hp
      have hs : upsertAll s (e :: rest) = upsertAll (upsertStep s e.1 e.2) rest := rfl
      rw [hs, ih _ (fun x hx => hp x (List.mem_cons_of_mem e hx))]
      have hstep : findByFilePath p (upsertStep s e.1 e.2) =
          upsertStep (findByFilePath p s) e.1 e.2 := by
        rw [upsertStep_eq, upsertStep_eq]
        unfold findByFilePath
        rw [List.filter_append, filter_deleteItem_comm]
        have hone : ([toIndexItem e.1 e.2].filter
            fun it => it.meta.filePath = p) = [toIndexItem e.1 e.2] := by
          rw [List.filter_eq_self]
          intro a ha
          simp only [List.mem_singleton] at ha
          subst ha
          simp [toIndexItem, hp e (List.mem_cons_self e rest)]
        rw [hone]
      rw [hstep]
      rfl

theorem filter_upsertAll_preserved (pred : IndexItem → Bool) :
    ∀ (entries : List (VectorItem × List ℚ)) (s : Store),
      (∀ e ∈ entries, pred (toIndexItem (e : VectorItem × List ℚ).1 e.2) = false) →
      (∀ e ∈ entries, ∀ x ∈ s, pred x = true → x.id ≠ (e : VectorItem × List ℚ).1.id) →
      (upsertAll s entries).filter pred = s.filter pred := by
  intro entries
  induction entries with
  | nil =>
      intro s _ _
      rfl
  | cons e rest ih =>
      intro s hout hdisj
      have hs : upsertAll s (e :: rest) = upsertAll (upsertStep s e.1 e.2) rest := rfl
      rw [hs]
      have hstep : (upsertStep s e.1 e.2).filter pred = s.filter pred := by
        rw [upsertStep_eq, List.filter_append]
        have hone : ([toIndexItem e.1 e.2].filter pred) = [] := by
          rw [List.filter_eq_nil_iff]
          intro a ha
          simp only [List.mem_singleton] at ha
          subst ha
          simp [hout e (List.mem_cons_self e rest)]
        rw [hone, List.append_nil, filter_deleteItem_comm]
        unfold deleteItem
        rw [List.filter_eq_self]
        intro a ha
        rw [List.mem_filter] at ha
        have := hdisj e (List.mem_cons_self e rest) a ha.1 ha.2
        simpa using this
      have hmem : ∀ x ∈ upsertStep s e.1 e.2, pred x = true → x ∈ s.filter pred := by
        intro x hx hpx
        rw [upsertStep_eq] at hx
        rcases List.mem_append.mp hx with hx | hx
        · rw [List.mem_filter]
          have hxs : x ∈ s := List.mem_of_mem_filter hx
          exact ⟨hxs, hpx⟩
        · simp only [List.mem_singleton] at hx
          subst hx
          rw [hout e (List.mem_cons_self e rest)] at hpx
          cases hpx
      rw [← hstep]
      apply ih
      · intro x hx
        exact hout x (List.mem_cons_of_mem e hx)
      · intro e1 he1 x hx hpx
        have hxf := hmem x hx hpx
        rw [List.mem_filter] at hxf
        exact hdisj e1 (List.mem_cons_of_mem e he1) x hxf.1 hxf.2

theorem foldl_deleteItem_eq (s : Store) :
    ∀ (del : List IndexItem),
      del.foldl (fun acc it => deleteItem it.id acc) s =
        s.filter (fun x => del.all fun c => x.id ≠ c.id) := by
  intro del
  induction del generalizing s with
  | nil =>
      simp
  | cons c del ih =>
      rw [List.foldl_cons, ih]
      unfold deleteItem
      rw [List.filter_filter]
      apply List.filter_congr
      intro x _
      simp only [List.all_cons]
      rw [Bool.and_comm]

theorem deleteByFilePath_eq_filter (p : String) (st : Store)
    (hnd : (st.map fun it => it.id).Nodup) :
    deleteByFilePath p st = st.filter (fun it => it.meta.filePath ≠ p) := by
  unfold deleteByFilePath findByFilePath
  rw [foldl_deleteItem_eq]
  apply List.filter_congr
  intro x hx
  by_cases hp : x.meta.filePath = p
  · have hxin : x ∈ st.filter (fun it => it.meta.filePath = p) := by
      rw [List.mem_filter]
      exact ⟨hx, by simpa using hp⟩
    have hfalse : (st.filter (fun it => it.meta.filePath = p)).all
        (fun c => x.id ≠ c.id) = false := by
      rw [List.all_eq_false]
      exact ⟨x, hxin, by simp⟩
    rw [hfalse]
    simp [hp]
  · have htrue : (st.filter (fun it => it.meta.filePath = p)).all
        (fun c => x.id ≠ c.id) = true := by
      rw [List.all_eq_true]
      intro c hc
      have hcin : c ∈ st := List.mem_of_mem_filter hc
      have hcpath : c.meta.filePath = p := by
        have := (List.mem_filter.mp hc).2
        simpa using this
      have hne : x ≠ c := by
        intro hcon
        subst hcon
        exact hp hcpath
      have := List.inj_on_of_nodup_map hnd hx hcin
      simp only [decide_eq_true_eq, ne_eq]
      intro hid
      exact hne (this hid)
    rw [htrue]
    simp [hp]

theorem upsertAll_ids_nodup :
    ∀ (entries : List (VectorItem × List ℚ)) (s : Store),
      (s.map fun it => it.id).Nodup →
      ((upsertAll s entries).map fun it => it.id).Nodup := by
  intro entries
  induction entries with
  | nil =>
      intro s h
      exact h
  | cons e rest ih =>
      intro s h
      have hs : upsertAll s (e :: rest) = upsertAll (upsertStep s e.1 e.2) rest := rfl
      rw [hs]
      apply ih
      rw [upsertStep_eq, List.map_append]
      rw [List.nodup_append]
      refine ⟨?_, by simp, ?_⟩
      · have hsub : (deleteItem e.1.id s).map (fun it => it.id) |>.Sublist
            (s.map fun it => it.id) := (List.filter_sublist s).map _
        exact h.sublist hsub
      · intro a ha
        simp only [List.map, List.mem_singleton]
        rw [List.mem_map] at ha
        obtain ⟨x, hx, rfl⟩ := ha
        unfold deleteItem at hx
        have := (List.mem_filter.mp hx).2
        simp only [toIndexItem]
        simpa using this

theorem mem_upsertAll :
    ∀ (entries : List (VectorItem × List ℚ)) (s : Store) (x : IndexItem),
      x ∈ upsertAll s entries →
      x ∈ s ∨ ∃ e ∈ entries, x = toIndexItem (e : VectorItem × List ℚ).1 e.2 := by
  intro entries
  induction entries with
  | nil =>
      intro s x hx
      exact Or.inl hx
  | cons e rest ih =>
      intro s x hx
      have hs : upsertAll s (e :: rest) = upsertAll (upsertStep s e.1 e.2) rest := rfl
      rw [hs] at hx
      rcases ih _ x hx with hx1 | ⟨e1, he1, rfl⟩
      · rw [upsertStep_eq] at hx1
        rcases List.mem_append.mp hx1 with hx2 | hx2
        · exact Or.inl (List.mem_of_mem_filter hx2)
        · simp only [List.mem_singleton] at hx2
          subst hx2
          exact Or.inr ⟨e, List.mem_cons_self e rest, rfl⟩
      · exact Or.inr ⟨e1, List.mem_cons_of_mem e he1, rfl⟩

theorem chunkMarkdownGo_path (filePath : String) (lastModified : Int) :
    ∀ (rest : List String) (i sl : Nat) (hdr : String) (cur : List String),
      ∀ c ∈ chunkMarkdownGo filePath lastModified i sl hdr cur rest,
        c.metadata.filePath = filePath := by
  intro rest
  induction rest with
  | nil =>
      intro i sl hdr cur c hc
      simp only [chunkMarkdownGo] at hc
      cases hx : cur.isEmpty with
      | false =>
          rw [hx] at hc
          simp only [Bool.false_eq_true, if_false, List.mem_singleton] at hc
          subst hc
          rfl
      | true =>
          rw [hx] at hc
          simp at hc
  | cons line rs ih =>
      intro i sl hdr cur c hc
      simp only [chunkMarkdownGo] at hc
      by_cases hh : isHeadingLine line = true
      · rw [if_pos hh] at hc
        rcases List.mem_append.mp hc with hx | hx
        · cases he : cur.isEmpty with
          | false =>
              rw [he] at hx
              simp only [Bool.false_eq_true, if_false, List.mem_singleton] at hx
              subst hx
              rfl
          | true =>
              rw [he] at hx
              simp at hx
        · exact ih (i + 1) (i + 1) (headingTitle line) [line] c hx
      · rw [if_neg hh] at hc
        exact ih (i + 1) sl hdr (cur ++ [line]) c hc

theorem simpleChunkGo_path (cfg : IndexConfig) (filePath : String)
    (type : ChunkType) (lastModified : Int) (lines : List String) :
    ∀ i, ∀ c ∈ simpleChunkGo cfg filePath type lastModified lines i,
      c.metadata.filePath = filePath := by
  intro i
  induction i using simpleChunkGo.induct cfg filePath type lastModified lines with
  | case1 i h ih =>
      intro c hc
      rw [simpleChunkGo, dif_pos h] at hc
      rcases List.mem_append.mp hc with hx | hx
      · by_cases ht : (String.intercalate "\n" ((lines.drop i).take cfg.chunkSize)).trim ≠ ""
        · rw [if_pos ht] at hx
          simp only [List.mem_singleton] at hx
          subst hx
          rfl
        · rw [if_neg ht] at hx
          cases hx
      · exact ih c hx
  | case2 i h =>
      intro c hc
      rw [simpleChunkGo, dif_neg h] at hc
      cases hc

theorem fileChunks_path (cfg : IndexConfig) (parse : String → Option (List CodeChunk))
    (content path : String) (mtime : Int) :
    ∀ c ∈ fileChunks cfg parse content path mtime, c.metadata.filePath = path := by
  intro c hc
  unfold fileChunks at hc
  by_cases hcode : isCodeExt (lowerStr (extname path)) = true
  · rw [if_pos hcode] at hc
    unfold chunkCode at hc
    cases hp : parse content with
    | some cc =>
        rw [hp] at hc
        rw [List.mem_map] at hc
        obtain ⟨p, _, rfl⟩ := hc
        rfl
    | none =>
        rw [hp] at hc
        exact simpleChunkGo_path cfg path ChunkType.code mtime (splitLines content) 0 c hc
  · rw [if_neg hcode] at hc
    exact chunkMarkdownGo_path path mtime (splitLines content) 0 1 "" [] c hc

theorem mapM_option_some {α β : Type} (g : α → β) :
    ∀ l : List α, l.mapM (fun a => some (g a)) = some (l.map g) := by
  intro l
  induction l with
  | nil => rfl
  | cons a l ih =>
      rw [List.mapM_cons, ih]
      rfl

theorem indexFile_ok_run (cfg : IndexConfig)
    (parse : String → Option (List CodeChunk)) (embedF : String → List ℚ)
    (st : Store) (f : FileInput) (content : String)
    (hc : f.content = some content) (hne : content ≠ "")
    (hidx : (isCodeExt (lowerStr (extname f.path)) ||
      isDocsExt (lowerStr (extname f.path))) = true) :
    indexFile cfg parse (fun t => some (embedF t)) (fun _ => false) st f =
      (upsertAll (deleteByFilePath f.path st)
        (freshEntries cfg parse embedF content f.path f.mtime),
       .ok (fileChunks cfg parse content f.path f.mtime).length) := by
  unfold indexFile
  rw [hc]
  show (if content = "" then (st, Except.ok 0) else _) = _
  rw [if_neg hne]
  have hor : isCodeExt (lowerStr (extname f.path)) = true ∨
      isDocsExt (lowerStr (extname f.path)) = true := by
    simpa using hidx
  have hnotskip : ¬ (¬ (isCodeExt (lowerStr (extname f.path)) = true) ∧
      ¬ (isDocsExt (lowerStr (extname f.path)) = true)) := by
    rcases hor with h | h
    · intro hcon
      exact hcon.1 h
    · intro hcon
      exact hcon.2 h
  rw [if_neg hnotskip]
  simp only []
  cases hemp : (fileChunks cfg parse content f.path f.mtime).isEmpty with
  | true =>
      rw [if_pos rfl]
      have hnil := List.isEmpty_iff.mp hemp
      rw [show freshEntries cfg parse embedF content f.path f.mtime = [] by
        unfold freshEntries
        rw [hnil]
        rfl]
      rw [hnil]
      rfl
  | false =>
      rw [if_neg (by simp)]
      rw [mapM_option_some]
      simp only []
      have hzip : (fileChunks cfg parse content f.path f.mtime).zip
          (((fileChunks cfg parse content f.path f.mtime).map fun c => c.text).map embedF) =
          freshEntries cfg parse embedF content f.path f.mtime := by
        have h1 : (((fileChunks cfg parse content f.path f.mtime).map
            fun c => c.text).map embedF) =
            (fileChunks cfg parse content f.path f.mtime).map
              (fun c => embedF c.text) := by
          rw [List.map_map]
          rfl
        rw [h1]
        have h2 := List.zip_map' id (fun c : VectorItem => embedF c.text)
          (fileChunks cfg parse content f.path f.mtime)
        rw [List.map_id] at h2
        rw [h2]
        rfl
      rw [hzip]
      have hloop : upsertBatch (fun _ => false)
          (deleteByFilePath f.path st)
          (freshEntries cfg parse embedF content f.path f.mtime) =
          .ok (upsertAll (deleteByFilePath f.path st)
            (freshEntries cfg parse embedF content f.path f.mtime)) := by
        unfold upsertBatch
        exact upsertLoop_noFail st _ 0 _
      rw [hloop]

/-- C5 amended: for a readable, non-empty file of an indexed extension,
indexFile first deletes every entry of the path and then inserts the fresh
chunk batch: afterwards the entries of the path are exactly the applied
fresh batch (a pure function of the file content - no stale leftovers),
entries of every other path are untouched, the store ids stay pairwise
distinct (no duplicates), and running indexFile again on the unchanged file
returns the identical store and count - identical chunk ids and vectors,
and the item count for the path does not grow. The store is assumed to
satisfy the indexer invariants: pairwise distinct ids, and no entry of
another path already carries the id of a fresh chunk. -/
theorem indexFile_reindex (cfg : IndexConfig)
    (parse : String → Option (List CodeChunk)) (embedF : String → List ℚ)
    (st : Store) (f : FileInput) (content : String)
    (hc : f.content = some content) (hne : content ≠ "")
    (hidx : (isCodeExt (lowerStr (extname f.path)) ||
      isDocsExt (lowerStr (extname f.path))) = true)
    (hnd : (st.map fun it => it.id).Nodup)
    (hfresh : ∀ it ∈ st, it.meta.filePath ≠ f.path →
      it.id ∉ (fileChunks cfg parse content f.path f.mtime).map fun c => c.id) :
    findByFilePath f.path
        (indexFile cfg parse (fun t => some (embedF t)) (fun _ => false) st f).1 =
      upsertAll [] (freshEntries cfg parse embedF content f.path f.mtime) ∧
    (∀ q, q ≠ f.path →
      findByFilePath q
          (indexFile cfg parse (fun t => some (embedF t)) (fun _ => false) st f).1 =
        findByFilePath q st) ∧
    (((indexFile cfg parse (fun t => some (embedF t)) (fun _ => false) st f).1.map
      fun it => it.id).Nodup) ∧
    indexFile cfg parse (fun t => some (embedF t)) (fun _ => false)
        (indexFile cfg parse (fun t => some (embedF t)) (fun _ => false) st f).1 f =
      indexFile cfg parse (fun t => some (embedF t)) (fun _ => false) st f := by
  have hrun := indexFile_ok_run cfg parse embedF st f content hc hne hidx
  have hdel : deleteByFilePath f.path st =
      st.filter (fun it => it.meta.filePath ≠ f.path) :=
    deleteByFilePath_eq_filter f.path st hnd
  have hepath : ∀ e ∈ freshEntries cfg parse embedF content f.path f.mtime,
      (e : VectorItem × List ℚ).1.metadata.filePath = f.path := by
    intro e he
    unfold freshEntries at he
    rw [List.mem_map] at he
    obtain ⟨c, hcmem, rfl⟩ := he
    exact fileChunks_path cfg parse content f.path f.mtime c hcmem
  have heid : ∀ e ∈ freshEntries cfg parse embedF content f.path f.mtime,
      (e : VectorItem × List ℚ).1.id ∈
        (fileChunks cfg parse content f.path f.mtime).map fun c => c.id := by
    intro e he
    unfold freshEntries at he
    rw [List.mem_map] at he
    obtain ⟨c, hcmem, rfl⟩ := he
    exact List.mem_map.mpr ⟨c, hcmem, rfl⟩
  have hnd1 : ((deleteByFilePath f.path st).map fun it => it.id).Nodup := by
    rw [hdel]
    exact hnd.sublist ((List.filter_sublist st).map _)
  have hndst1 : (((indexFile cfg parse (fun t => some (embedF t)) (fun _ => false)
      st f).1).map fun it => it.id).Nodup := by
    rw [hrun]
    exact upsertAll_ids_nodup _ _ hnd1
  have hdisj : ∀ e ∈ freshEntries cfg parse embedF content f.path f.mtime,
      ∀ x ∈ deleteByFilePath f.path st, x.id ≠ (e : VectorItem × List ℚ).1.id := by
    intro e he x hx
    rw [hdel, List.mem_filter] at hx
    have hxp : x.meta.filePath ≠ f.path := by simpa using hx.2
    have hnot := hfresh x hx.1 hxp
    intro hcon
    rw [hcon] at hnot
    exact hnot (heid e he)
  refine ⟨?_, ?_, hndst1, ?_⟩
  · rw [hrun]
    show findByFilePath f.path (upsertAll (deleteByFilePath f.path st)
      (freshEntries cfg parse embedF content f.path f.mtime)) = _
    rw [findByFilePath_upsertAll f.path _ _ hepath]
    have hemp : findByFilePath f.path (deleteByFilePath f.path st) = [] := by
      rw [hdel]
      unfold findByFilePath
      rw [List.filter_eq_nil_iff]
      intro a ha
      have h2 := (List.mem_filter.mp ha).2
      simp only [decide_eq_true_eq] at h2 ⊢
      simpa using h2
    rw [hemp]
  · intro q hq
    rw [hrun]
    show findByFilePath q (upsertAll (deleteByFilePath f.path st)
      (freshEntries cfg parse embedF content f.path f.mtime)) = _
    unfold findByFilePath
    rw [filter_upsertAll_preserved (fun it => it.meta.filePath = q) _ _ ?_ ?_]
    · rw [hdel, List.filter_filter]
      apply List.filter_congr
      intro x _
      by_cases hxq : x.meta.filePath = q
      · have hxp : x.meta.filePath ≠ f.path := by
          rw [hxq]
          exact hq
        simp [hxq, hxp, hq]
      · simp [hxq]
    · intro e he
      have hp : (toIndexItem (e : VectorItem × List ℚ).1 e.2).meta.filePath = f.path :=
        hepath e he
      show decide ((toIndexItem (e : VectorItem × List ℚ).1 e.2).meta.filePath = q) = false
      rw [hp]
      exact decide_eq_false (fun hcon => hq hcon.symm)
    · intro e he x hx hpx
      exact hdisj e he x hx
  · have hrun2 := indexFile_ok_run cfg parse embedF
      (indexFile cfg parse (fun t => some (embedF t)) (fun _ => false) st f).1
      f content hc hne hidx
    rw [hrun2, hrun]
    refine congrArg₂ Prod.mk ?_ rfl
    show upsertAll (deleteByFilePath f.path (upsertAll (deleteByFilePath f.path st)
        (freshEntries cfg parse embedF content f.path f.mtime)))
      (freshEntries cfg parse embedF content f.path f.mtime) = _
    have hpres : (upsertAll (deleteByFilePath f.path st)
        (freshEntries cfg parse embedF content f.path f.mtime)).filter
          (fun it => it.meta.filePath ≠ f.path) =
        (deleteByFilePath f.path st).filter
          (fun it => it.meta.filePath ≠ f.path) := by
      apply filter_upsertAll_preserved
      · intro e he
        have hp : (toIndexItem (e : VectorItem × List ℚ).1 e.2).meta.filePath =
            f.path := hepath e he
        show decide ((toIndexItem (e : VectorItem × List ℚ).1 e.2).meta.filePath ≠
          f.path) = false
        rw [hp]
        simp
      · intro e he x hx hpx
        exact hdisj e he x hx
    have hself : (deleteByFilePath f.path st).filter
        (fun it => it.meta.filePath ≠ f.path) = deleteByFilePath f.path st := by
      rw [hdel, List.filter_filter]
      apply List.filter_congr
      intro x _
      rw [Bool.and_self]
    rw [deleteByFilePath_eq_filter _ _ (upsertAll_ids_nodup _ _ hnd1), hpres, hself]

/-- A previously indexed documentation chunk of the path doc.md. -/
def staleDoc : IndexItem :=
  { id := "doc.md#1", vector := [], text := "# Old"
    meta := { type := ChunkType.docs, filePath := "doc.md", startLine := 1
              endLine := 1, language := none, symbolName := none
              lastModified := 0 } }

/-- C5 counterexample: indexFile tests the falsy content before calling
deleteByFilePath, so re-indexing a path whose content now reads back empty
returns indexed 0 with the store untouched: the previously indexed chunk of
that path survives as a stale leftover, refuting that re-indexing a file
path first deletes all store entries of that path. -/
theorem indexFile_stale_leftover :
    indexFile defaultIndexConfig (fun _ => none) (fun _ => some [])
        (fun _ => false) [staleDoc] ⟨"doc.md", some "", 1⟩ =
      ([staleDoc], Except.ok 0) ∧
    findByFilePath "doc.md" [staleDoc] = [staleDoc] := by
  exact ⟨rfl, by decide⟩

/-- Witness for C5: indexing the markdown file doc.md with content # A over
the empty store, twice, with a trivial embedding backend. -/
theorem indexFile_reindex_witness :
    findByFilePath "doc.md"
        (indexFile defaultIndexConfig (fun _ => none)
          (fun _ => some ([] : List ℚ)) (fun _ => false) []
          ⟨"doc.md", some "# A", 0⟩).1 =
      upsertAll [] (freshEntries defaultIndexConfig (fun _ => none)
        (fun _ => ([] : List ℚ)) "# A" "doc.md" 0) ∧
    (∀ q, q ≠ "doc.md" →
      findByFilePath q
          (indexFile defaultIndexConfig (fun _ => none)
            (fun _ => some ([] : List ℚ)) (fun _ => false) []
            ⟨"doc.md", some "# A", 0⟩).1 =
        findByFilePath q []) ∧
    (((indexFile defaultIndexConfig (fun _ => none)
        (fun _ => some ([] : List ℚ)) (fun _ => false) []
        ⟨"doc.md", some "# A", 0⟩).1.map fun it => it.id).Nodup) ∧
    indexFile defaultIndexConfig (fun _ => none) (fun _ => some ([] : List ℚ))
        (fun _ => false)
        (indexFile defaultIndexConfig (fun _ => none)
          (fun _ => some ([] : List ℚ)) (fun _ => false) []
          ⟨"doc.md", some "# A", 0⟩).1
        ⟨"doc.md", some "# A", 0⟩ =
      indexFile defaultIndexConfig (fun _ => none) (fun _ => some ([] : List ℚ))
        (fun _ => false) [] ⟨"doc.md", some "# A", 0⟩ :=
  indexFile_reindex defaultIndexConfig (fun _ => none) (fun _ => ([] : List ℚ))
    [] ⟨"doc.md", some "# A", 0⟩ "# A" rfl (by decide) (by decide) (by simp)
    (fun it h => absurd h (List.not_mem_nil it))
